import Mathlib

/-!
Verification of the dependency-ordered view lifecycle manager
(`viewedmodels/models.py` and `viewedmodels/helpers.py`).

The development shallowly embeds the Python source:

* Django model classes become the `VClass` structure (one value per concrete
  class, carrying the `_meta` attributes, the `dependencies` declaration, the
  presence and result of the `sql` classmethod, and the overridable
  `update_mv` / `concurrently` hooks).
* The registry of all discoverable models (what `get_subclasses(ViewedModel)`
  plus Django's app registry provide) is a `List VClass`; `viewed = true`
  marks the classes `get_subclasses(ViewedModel)` yields.
* Fallible Python code (`LookupError`, toposort's `CircularDependencyError`,
  the `assert hasattr(cls, 'sql')` assertion, `ProgrammingError`, `TypeError`)
  is modelled with `Except`.
* The external `toposort` library's `toposort_flatten` is modelled from the
  spec (its code is not part of this repository): repeatedly emit the set of
  items with no unsatisfied dependencies, sorting each emitted level
  (`sorted`), adding dependency items that are not keys with an empty
  dependency set, and failing with a cycle error when no progress is
  possible on a non-empty remainder — so, as the spec demands, any graph
  that is not acyclic (a self-dependency included) is fatal and no order is
  returned.
* Django's `truncate_name` is modelled from the spec: identifiers no longer
  than the engine limit (63) are returned unchanged; the md5-hash shortening
  of overlong identifiers is external to this repository and is modelled by
  plain truncation.  All general theorems restrict to identifiers within the
  limit, where both agree.
* Python string ordering (`sorted`) is code-point lexicographic; `strLe`
  implements exactly that on the character lists.  `str.lower` is modelled by
  ASCII lowercasing (`lowerChar`), which agrees with Python on the ASCII
  identifiers Django produces.
* The database state touched by the materialized-view metadata code is a
  comment slot (`pg_description`) plus a log of executed statements
  (`MvState`).  A stored comment is represented by whether `json.loads`
  accepts it: `StoredComment.jsonOf v` stands for the serialized form of the
  JSON value `v`, and `StoredComment.nonJson s` for a raw string that
  `json.loads` rejects.
-/

instance {ε α : Type} [DecidableEq ε] [DecidableEq α] : DecidableEq (Except ε α)
  | .ok a, .ok b =>
    if h : a = b then .isTrue (by rw [h]) else .isFalse (fun he => by cases he; exact h rfl)
  | .error a, .error b =>
    if h : a = b then .isTrue (by rw [h]) else .isFalse (fun he => by cases he; exact h rfl)
  | .ok _, .error _ => .isFalse (fun he => by cases he)
  | .error _, .ok _ => .isFalse (fun he => by cases he)

/-- ASCII lowercasing of one character, embedding Python `str.lower` on the
ASCII identifiers used for app labels and model names. -/
def lowerChar (c : Char) : Char :=
  if 65 ≤ c.toNat ∧ c.toNat ≤ 90 then Char.ofNat (c.toNat + 32) else c

/-- Python `s.lower()` on ASCII strings. -/
def lowerStr (s : String) : String := String.mk (s.data.map lowerChar)

/-- Django `truncate_name` (see `helpers.default_table_name`): an identifier
within the length limit is returned unchanged.  Modelled from the spec for
overlong names: the original appends an md5 hash, which is external to this
repository; here overlong names are plainly truncated.  Theorems only use
names within the limit, where the two definitions agree. -/
def truncate_name (s : String) (maxLen : Nat) : String :=
  if s.length ≤ maxLen then s else String.mk (s.data.take maxLen)

/-- Postgres identifier length limit (`connection.ops.max_name_length()`). -/
def max_name_length : Nat := 63

/-- helpers.default_table_name: `("%s_%s" % (app, model))`, truncated and
lowercased. -/
def default_table_name (app_name model_name : String) : String :=
  truncate_name (lowerStr (app_name ++ "_" ++ model_name)) max_name_length

/-- Code-point lexicographic order on character lists: how Python compares
strings in `sorted`. -/
def lexLe : List Char → List Char → Bool
  | [], _ => true
  | _ :: _, [] => false
  | x :: xs, y :: ys =>
    if x.toNat < y.toNat then true
    else if x.toNat = y.toNat then lexLe xs ys
    else false

/-- Python string comparison used by `sorted`. -/
def strLe (a b : String) : Bool := lexLe a.data b.data

def insertSorted (x : String) : List String → List String
  | [] => [x]
  | y :: ys => if strLe x y then x :: y :: ys else y :: insertSorted x ys

/-- Python `sorted` on a list of strings (insertion sort; on the
duplicate-free levels produced by the scheduler every correct sort agrees
with Python's). -/
def sortLevel : List String → List String
  | [] => []
  | x :: xs => insertSorted x (sortLevel xs)

/-- The `splitname = name.split('_'); model = splitname[-1];
app = '_'.join(splitname[:-1])` computation of `sort_dependencies`: the
result is `(app, model)` where `model` is the part after the last
underscore, and `app` the part before it (empty when no underscore occurs,
matching Python's `''.join([])`). -/
def splitLastUnderscore (s : String) : String × String :=
  if (s.data.reverse.takeWhile (fun c => c ≠ '_')).length = s.data.reverse.length
  then ("", s)
  else (String.mk ((s.data.reverse.drop
          ((s.data.reverse.takeWhile (fun c => c ≠ '_')).length + 1)).reverse),
        String.mk ((s.data.reverse.takeWhile (fun c => c ≠ '_')).reverse))

/-- One Django model class as the scheduler sees it: `_meta` attributes,
whether it is one of the classes enumerated by `get_subclasses(ViewedModel)`
(`viewed`), the declared `dependencies`, whether the class (or an ancestor)
defines `sql` and what calling it returns (`sql = some r` means the
attribute exists and `cls.sql()` returns `r`, with `r = none` standing for
Python `None`; `sql = none` means the attribute is absent, as on plain
`ViewedModel` subclasses that never override the deleted base `sql`), the
optional `params` attribute, and the materialized-view hooks `concurrently`
and `update_mv` (the result of the overridable policy method). -/
structure VClass where
  app_label : String
  model_name : String
  db_table : String
  viewed : Bool
  abstract : Bool
  materialized : Bool
  sql : Option (Option String)
  params : Option String
  dependencies : List (String × String)
  concurrently : Bool
  update_mv : Bool
deriving DecidableEq, Repr

/-- helpers.table_name: `model._meta.db_table`. -/
def table_name (c : VClass) : String := c.db_table

/-- helpers.model_default_table_name. -/
def model_default_table_name (c : VClass) : String :=
  default_table_name c.app_label c.model_name

/-- helpers.get_model: look the `(app, model)` pair up in the registry after
lowercasing both parts; `none` is the `LookupError` case. -/
def get_model (reg : List VClass) (app_name model_name : String) : Option VClass :=
  reg.find? (fun c => c.app_label == lowerStr app_name && c.model_name == lowerStr model_name)

/-- Every error the scheduler and renderers can raise. -/
inductive VmError
  | lookup (app model : String)
  | cycle (data : List (String × List String))
  | noSql (table : String)
deriving DecidableEq, Repr

/-- The dependency dictionary `defaultdict(set)` keyed by canonical table
name, as an insertion-ordered association list with duplicate-free value
lists. -/
abbrev Graph := List (String × List String)

/-- Python `str.split` on one separator character (`apps.split(',')`):
splitting the empty string yields one empty part. -/
def splitChars (sep : Char) : List Char → List (List Char)
  | [] => [[]]
  | c :: cs =>
    let r := splitChars sep cs
    if c = sep then [] :: r
    else
      match r with
      | [] => [[c]]
      | h :: t => (c :: h) :: t

/-- The scope argument parsed as Python does: `apps.split(',')`. -/
def splitOnComma (s : String) : List String :=
  (splitChars ',' s.data).map String.mk

/-- Whether the loop over `get_subclasses(ViewedModel)` processes `c` for a
scope argument `apps`: `if apps != 'all' and c._meta.app_label not in
apps: continue`. -/
def inScope (appsArg : String) (c : VClass) : Bool :=
  appsArg == "all" || (splitOnComma appsArg).contains c.app_label

/-- The `dependencies[class_string].add(name)` operation on the dependency
dictionary: extend the entry for `k` (creating it when absent, as
`defaultdict(set)` does) with `v`, keeping value lists duplicate-free. -/
def dictAdd (d : Graph) (k v : String) : Graph :=
  if d.any (fun p => p.1 == k) then
    d.map (fun p => if p.1 == k then (p.1, if p.2.contains v then p.2 else p.2 ++ [v]) else p)
  else d ++ [(k, [v])]

/-- The inner `for dependency in getattr(c, 'dependencies', [])` loop of
`sort_dependencies`: resolve each dependency reference with `get_model`
(raising `LookupError` when it fails) and record the edge. -/
def addDeps (reg : List VClass) (cstr : String) : List (String × String) → Graph → Except VmError Graph
  | [], acc => .ok acc
  | (a, m) :: rest, acc =>
    match get_model reg a m with
    | some dep => addDeps reg cstr rest (dictAdd acc cstr (model_default_table_name dep))
    | none => .error (.lookup a m)

/-- The outer `for c in get_subclasses(ViewedModel)` loop of
`sort_dependencies`, building the dependency dictionary: skip classes out of
scope and abstract classes, then record the declared dependencies. -/
def buildGraphAux (reg : List VClass) (appsArg : String) : List VClass → Graph → Except VmError Graph
  | [], acc => .ok acc
  | c :: rest, acc =>
    if c.viewed = false then buildGraphAux reg appsArg rest acc
    else if inScope appsArg c = false then buildGraphAux reg appsArg rest acc
    else if c.abstract = true then buildGraphAux reg appsArg rest acc
    else
      match addDeps reg (model_default_table_name c) c.dependencies acc with
      | .ok acc2 => buildGraphAux reg appsArg rest acc2
      | .error e => .error e

def buildGraph (reg : List VClass) (appsArg : String) : Except VmError Graph :=
  buildGraphAux reg appsArg reg []

def graphKeys (d : Graph) : List String := d.map Prod.fst

/-- Duplicate removal (Python set semantics; the order of the result is
irrelevant because every emitted level is sorted). -/
def dedupKeep : List String → List String
  | [] => []
  | x :: xs => if xs.contains x then dedupKeep xs else x :: dedupKeep xs

/-- toposort's `extra_items_in_deps`: dependency items that are not keys. -/
def extraItems (d : Graph) : List String :=
  dedupKeep ((d.flatMap Prod.snd).filter (fun v => !(graphKeys d).contains v))

/-- The scheduler's preprocessing, modelled from the spec: every
dependency-only item (a base table) becomes a graph node with an empty
dependency set.  Entries keep their dependency sets unchanged, so a
self-dependency never becomes free and, as the spec demands, any cyclic
graph fails. -/
def prepare (d : Graph) : Graph :=
  d ++ (extraItems d).map (fun x => (x, ([] : List String)))

/-- One round's emitted set: the items whose dependency set is exhausted
(`ordered = set(item for item, dep in data.items() if len(dep) == 0)`). -/
def freeKeys (data : Graph) : List String :=
  (data.filter (fun p => p.2.isEmpty)).map Prod.fst

/-- One round's remaining data: drop the emitted items and remove them from
every remaining dependency set. -/
def removeKeys (data : Graph) (ordered : List String) : Graph :=
  (data.filter (fun p => !(ordered.contains p.1))).map
    (fun p => (p.1, p.2.filter (fun v => !(ordered.contains v))))

/-- toposort's main loop, fuelled: emit the items whose dependency set is
exhausted, remove them, and fail with the remaining (cyclic) data when no
item is free.  Each successful round removes at least one key, so fuel equal
to the number of keys suffices. -/
def toposortLoop : Nat → Graph → Except Graph (List (List String))
  | _, [] => .ok []
  | 0, data => .error data
  | fuel + 1, data =>
    if (freeKeys data).isEmpty then .error data
    else
      match toposortLoop fuel (removeKeys data (freeKeys data)) with
      | .ok levels => .ok (freeKeys data :: levels)
      | .error e => .error e

/-- toposort_flatten's `result.extend(sorted(d))`. -/
def flatSorted (levels : List (List String)) : List String :=
  (levels.map sortLevel).flatten

/-- The external library's `toposort_flatten(data, sort=True)`, modelled from
the spec (see the header). -/
def toposort_flatten (d : Graph) : Except Graph (List String) :=
  match toposortLoop (prepare d).length (prepare d) with
  | .ok levels => .ok (flatSorted levels)
  | .error e => .error e

/-- The body of the `for name in flattened` loop of `sort_dependencies` for
one name: split the name back into app and model, skip the `'None'` app and
the `'viewedmodel'` base, look the model up (a failed lookup raises), and
keep it only when it has a `sql` attribute. -/
def resolveOkName (reg : List VClass) (name : String) : Except VmError (Option VClass) :=
  if (splitLastUnderscore name).1 == "None" || (splitLastUnderscore name).2 == "viewedmodel"
  then .ok none
  else
    match get_model reg (splitLastUnderscore name).1 (splitLastUnderscore name).2 with
    | none => .error (.lookup (splitLastUnderscore name).1 (splitLastUnderscore name).2)
    | some m => .ok (if m.sql.isSome then some m else none)

/-- The `for name in flattened` loop of `sort_dependencies`, accumulating
`model_objects`. -/
def modelsFromFlattened (reg : List VClass) : List String → Except VmError (List VClass)
  | [] => .ok []
  | n :: rest =>
    match resolveOkName reg n with
    | .error e => .error e
    | .ok m? =>
      match modelsFromFlattened reg rest with
      | .error e => .error e
      | .ok ms =>
        .ok (match m? with
             | some m => m :: ms
             | none => ms)

/-- ViewDefinition.sort_dependencies: build the dependency dictionary over
the in-scope registered definitions, flatten it topologically, and map the
flattened names back to model classes that carry a `sql` attribute. -/
def sort_dependencies (reg : List VClass) (appsArg : String) : Except VmError (List VClass) :=
  match buildGraph reg appsArg with
  | .error e => .error e
  | .ok g =>
    match toposort_flatten g with
    | .error d => .error (.cycle d)
    | .ok flattened => modelsFromFlattened reg flattened

/-- One element of a returned statement list: Python's `[sql, params]` lists
hold either a SQL string or a params value (`None` or the class `params`). -/
inductive Pv
  | str (s : String)
  | none
deriving DecidableEq, Repr

def pvOfParams : Option String → Pv
  | Option.none => Pv.none
  | Option.some p => Pv.str p

/-- ViewedModel.sql_drop: render
`DROP %(type)s IF EXISTS "%(name)s" %(cascade)s;` and return `[sql, None]`.
(The `dryrun` flag only suppresses execution; the returned list is the
same.) -/
def sql_drop (c : VClass) (drop_cascade : Bool) (dryrun : Bool) : List Pv :=
  let ty := if c.materialized then "MATERIALIZED VIEW" else "VIEW"
  let cascade := if drop_cascade then "CASCADE" else ""
  [Pv.str ("DROP " ++ ty ++ " IF EXISTS \"" ++ table_name c ++ "\" " ++ cascade ++ ";"), Pv.none]

/-- ViewedModel.sql_create: `assert hasattr(cls, 'sql')` (an absent `sql`
attribute raises, modelled as `VmError.noSql`), then render
`CREATE {type} "{name}" AS ({cls.sql()})` and return `[sql, params]`.
`str(None)` is the text `None`, so an inherited stub body renders as
`AS (None)`. -/
def sql_create (c : VClass) (dryrun : Bool) : Except VmError (List Pv) :=
  match c.sql with
  | Option.none => .error (.noSql (table_name c))
  | Option.some body =>
    let ty := if c.materialized then "MATERIALIZED VIEW" else "VIEW"
    let bodyText := match body with
                    | Option.none => "None"
                    | Option.some s => s
    .ok [Pv.str ("CREATE " ++ ty ++ " \"" ++ table_name c ++ "\" AS (" ++ bodyText ++ ")"),
         pvOfParams c.params]

/-- ViewDefinition.drop_all_statements: sorted models, reversed, each
rendered with `sql_drop(drop_cascade=False, dryrun=dryrun)`. -/
def drop_all_statements (reg : List VClass) (dryrun : Bool) (appsArg : String) :
    Except VmError (List (List Pv)) :=
  match sort_dependencies reg appsArg with
  | .error e => .error e
  | .ok ordered_models => .ok (ordered_models.reverse.map (fun m => sql_drop m false dryrun))

/-- The list comprehension `[model.sql_create(...) for model in ordered_models]`,
with a failing render propagating its exception. -/
def createStatements (dryrun : Bool) : List VClass → Except VmError (List (List Pv))
  | [] => .ok []
  | m :: rest =>
    match sql_create m dryrun with
    | .error e => .error e
    | .ok s =>
      match createStatements dryrun rest with
      | .error e => .error e
      | .ok ss => .ok (s :: ss)

/-- ViewDefinition.create_all_statements: sorted models in forward order,
each rendered with `sql_create`. -/
def create_all_statements (reg : List VClass) (dryrun : Bool) (appsArg : String) :
    Except VmError (List (List Pv)) :=
  match sort_dependencies reg appsArg with
  | .error e => .error e
  | .ok ordered_models => createStatements dryrun ordered_models

/-- A JSON value as far as the metadata comment code needs one: strings and
(insertion-ordered) objects. -/
inductive Jval
  | jstr (s : String)
  | jobj (kvs : List (String × Jval))

/-- A string stored in the `pg_description` comment slot, classified by
whether `json.loads` accepts it: `jsonOf v` is the serialization of `v`
(`json.dumps v`), `nonJson s` is a raw string `json.loads` rejects. -/
inductive StoredComment
  | jsonOf (v : Jval)
  | nonJson (s : String)

/-- A database side effect recorded during refresh: an executed SQL
statement, or a `COMMENT ON MATERIALIZED VIEW ... IS '<json.dumps content>'`
statement. -/
inductive DbOp
  | exec (sql : String)
  | setCommentOp (tbl : String) (content : Jval)

/-- The database state one materialized view's metadata code touches: its
comment slot plus the log of executed statements. -/
structure MvState where
  comment : Option StoredComment
  executed : List DbOp

/-- An uncaught Python exception in the refresh/metadata path. -/
inductive PyError
  | programmingError
  | typeError
deriving DecidableEq, Repr

/-- Python dict lookup `kvs[k]` (first matching key). -/
def getKey (kvs : List (String × Jval)) (k : String) : Option Jval :=
  (kvs.find? (fun p => p.1 == k)).map Prod.snd

/-- Python dict assignment `kvs[k] = v`: replace the value in place when the
key exists, append otherwise. -/
def setKey (kvs : List (String × Jval)) (k : String) (v : Jval) : List (String × Jval) :=
  if kvs.any (fun p => p.1 == k) then
    kvs.map (fun p => if p.1 == k then (p.1, v) else p)
  else kvs ++ [(k, v)]

/-- MaterializedViewedModel.get_comment: the stored `pg_description` text, or
`None` when the view has no comment. -/
def get_comment (st : MvState) : Option StoredComment := st.comment

/-- Lines 173-176 of set_comment: `try: json.loads(comment) except
JSONDecodeError: comment = {'old_content': comment}` applied to one stored
string. -/
def json_loads_or_wrap : StoredComment → Jval
  | .jsonOf v => v
  | .nonJson s => .jobj [("old_content", .jstr s)]

/-- The read-and-decode operation the spec calls `read_metadata`, as the code
realizes it: `get_comment` (nothing when no comment exists) followed by the
parse-or-wrap step of lines 173-176. -/
def read_metadata (st : MvState) : Option Jval :=
  (get_comment st).map json_loads_or_wrap

/-- MaterializedViewedModel.set_comment: `comment = cls.get_comment() or
'{}'` (an absent or empty comment becomes the empty object), parse-or-wrap,
set `comment['last_updated']` to the engine-reported time (a `TypeError`
when the parsed value is not an object), and store the serialized result
with `COMMENT ON MATERIALIZED VIEW`. -/
def set_comment (c : VClass) (now : String) (st : MvState) : Except PyError MvState :=
  let raw : StoredComment :=
    match get_comment st with
    | Option.none => .jsonOf (.jobj [])
    | Option.some (.nonJson s) => if s == "" then .jsonOf (.jobj []) else .nonJson s
    | Option.some sc => sc
  match json_loads_or_wrap raw with
  | .jobj kvs =>
    let merged := Jval.jobj (setKey kvs "last_updated" (.jstr now))
    .ok { comment := some (.jsonOf merged),
          executed := st.executed ++ [.setCommentOp (table_name c) merged] }
  | _ => .error .typeError

/-- MaterializedViewedModel.sql_refresh: ask `update_mv` first and return
`None` untouched when it refuses; otherwise render `REFRESH MATERIALIZED
VIEW [CONCURRENTLY] <table>`; when not in dryrun, execute it (`execOk =
false` is an engine `ProgrammingError`, logged and re-raised), update the
comment, and return `[sql, None]`.  In dryrun mode the function body falls
through after rendering (the `return` statement sits inside
`if not kwargs.get('dryrun', False)`), so it returns `None`. -/
def sql_refresh (c : VClass) (dryrun : Bool) (execOk : Bool) (now : String) (st : MvState) :
    Except PyError (Option (List Pv) × MvState) :=
  if c.update_mv = false then .ok (none, st)
  else
    let concurrently := if c.concurrently then "CONCURRENTLY" else ""
    let sql := "REFRESH MATERIALIZED VIEW " ++ concurrently ++ " " ++ table_name c
    if dryrun = false then
      if execOk then
        match set_comment c now { st with executed := st.executed ++ [.exec sql] } with
        | .ok st2 => .ok (some [Pv.str sql, Pv.none], st2)
        | .error e => .error e
      else .error .programmingError
    else .ok (none, st)

/-- An edge of the dependency dictionary: `b` is recorded as a dependency of
`a`. -/
def GraphEdge (g : Graph) (a b : String) : Prop :=
  ∃ vs, (a, vs) ∈ g ∧ b ∈ vs

/-- A non-empty chain of dependency edges. -/
def DepPath (g : Graph) : String → String → Prop :=
  Relation.TransGen (GraphEdge g)

/-- The dependency dictionary is acyclic: no identifier reaches itself. -/
def Acyclic (g : Graph) : Prop := ∀ n, ¬ DepPath g n n

/-- Sanity conditions Django guarantees for a registered model class: the
`_meta` app label and model name are lowercase ASCII, the model name is a
non-empty identifier without underscores (Django class names cannot contain
them), and the default table name fits within the identifier limit so
`truncate_name` is the identity. -/
def WFclass (c : VClass) : Prop :=
  lowerStr c.app_label = c.app_label ∧
  lowerStr c.model_name = c.model_name ∧
  c.model_name ≠ "" ∧
  '_' ∉ c.model_name.data ∧
  (c.app_label ++ "_" ++ c.model_name).length ≤ max_name_length

/-- A well-formed registry: every class is well-formed and no two classes
share an `(app_label, model_name)` identity. -/
def WFreg (reg : List VClass) : Prop :=
  (∀ c ∈ reg, WFclass c) ∧
  reg.Pairwise (fun a b => a.app_label ≠ b.app_label ∨ a.model_name ≠ b.model_name)

/-- Whether the graph-building loop processes class `c`: it is one of the
enumerated `ViewedModel` subclasses, in scope, and not abstract. -/
def enumOk (appsArg : String) (c : VClass) : Bool :=
  c.viewed && inScope appsArg c && !c.abstract

instance (c : VClass) : Decidable (WFclass c) := by
  unfold WFclass
  infer_instance

instance (reg : List VClass) : Decidable (WFreg reg) := by
  unfold WFreg
  infer_instance

/-! Concrete registries used by witnesses and counterexamples. -/

/-- Scenario registry (spec section 8): definition A with no dependencies. -/
def clsA : VClass :=
  { app_label := "appabc", model_name := "a", db_table := "appabc_a", viewed := true,
    abstract := false, materialized := false, sql := some (some "SELECT 1"), params := none,
    dependencies := [], concurrently := false, update_mv := true }

/-- Scenario registry: definition B depending on A. -/
def clsB : VClass :=
  { app_label := "appabc", model_name := "b", db_table := "appabc_b", viewed := true,
    abstract := false, materialized := false, sql := some (some "SELECT 2"), params := none,
    dependencies := [("appabc", "A")], concurrently := false, update_mv := true }

/-- Scenario registry: definition C depending on B. -/
def clsC : VClass :=
  { app_label := "appabc", model_name := "c", db_table := "appabc_c", viewed := true,
    abstract := false, materialized := false, sql := some (some "SELECT 3"), params := none,
    dependencies := [("appabc", "B")], concurrently := false, update_mv := true }

def regABC : List VClass := [clsA, clsB, clsC]

/-- Cycle scenario: X depends on Y. -/
def clsX : VClass :=
  { app_label := "appxy", model_name := "x", db_table := "appxy_x", viewed := true,
    abstract := false, materialized := false, sql := some (some "SELECT 1"), params := none,
    dependencies := [("appxy", "Y")], concurrently := false, update_mv := true }

/-- Cycle scenario: Y depends on X. -/
def clsY : VClass :=
  { app_label := "appxy", model_name := "y", db_table := "appxy_y", viewed := true,
    abstract := false, materialized := false, sql := some (some "SELECT 2"), params := none,
    dependencies := [("appxy", "X")], concurrently := false, update_mv := true }

def regXY : List VClass := [clsX, clsY]

/-- Self-dependency scenario: a definition declaring itself as a dependency. -/
def clsSelf : VClass :=
  { app_label := "appsf", model_name := "s", db_table := "appsf_s", viewed := true,
    abstract := false, materialized := false, sql := some (some "SELECT 1"), params := none,
    dependencies := [("appsf", "S")], concurrently := false, update_mv := true }

def regSelf : List VClass := [clsSelf]

/-- Scope scenario: an in-scope (ns1) definition depending on an ns2 one. -/
def clsNs1 : VClass :=
  { app_label := "ns1", model_name := "d1", db_table := "ns1_d1", viewed := true,
    abstract := false, materialized := false, sql := some (some "SELECT 1"), params := none,
    dependencies := [("ns2", "D2")], concurrently := false, update_mv := true }

/-- Scope scenario: the ns2 view definition referenced from ns1. -/
def clsNs2 : VClass :=
  { app_label := "ns2", model_name := "d2", db_table := "ns2_d2", viewed := true,
    abstract := false, materialized := false, sql := some (some "SELECT 2"), params := none,
    dependencies := [], concurrently := false, update_mv := true }

def regScope : List VClass := [clsNs1, clsNs2]

/-- A plain (non-materialized) view subclass that never overrides the deleted
base `sql`, so the attribute is absent. -/
def clsNoSql : VClass :=
  { app_label := "appn", model_name := "nosql", db_table := "appn_nosql", viewed := true,
    abstract := false, materialized := false, sql := none, params := none,
    dependencies := [("appn", "Base")], concurrently := false, update_mv := true }

/-- A plain base table (not a view definition, no `sql` attribute). -/
def clsBase : VClass :=
  { app_label := "appn", model_name := "base", db_table := "appn_base", viewed := false,
    abstract := false, materialized := false, sql := none, params := none,
    dependencies := [], concurrently := false, update_mv := true }

def regNoSql : List VClass := [clsNoSql, clsBase]

/-- A concrete materialized definition whose subclass never overrides `sql`:
it inherits the `MaterializedViewedModel.sql` stub, whose call returns
Python `None` (`sql = some none`). -/
def clsMatStub : VClass :=
  { app_label := "appm", model_name := "stub", db_table := "appm_stub", viewed := true,
    abstract := false, materialized := true, sql := some none, params := none,
    dependencies := [], concurrently := true, update_mv := true }

/-- A concrete materialized definition whose `update_mv` policy allows the
refresh. -/
def clsMat : VClass :=
  { app_label := "appm", model_name := "mv", db_table := "appm_mv", viewed := true,
    abstract := false, materialized := true, sql := some (some "SELECT 1"), params := none,
    dependencies := [], concurrently := true, update_mv := true }

/-- A concrete materialized definition whose `update_mv` policy refuses the
refresh (`should_refresh` returning false). -/
def clsMatSkip : VClass :=
  { app_label := "appm", model_name := "mvskip", db_table := "appm_mvskip", viewed := true,
    abstract := false, materialized := true, sql := some (some "SELECT 1"), params := none,
    dependencies := [], concurrently := true, update_mv := false }

/-- An initial metadata state with no comment and nothing executed. -/
def st0 : MvState := { comment := none, executed := [] }

/-- Index of the first occurrence of an element (list length when absent). -/
def idxOf [DecidableEq α] (x : α) : List α → Nat
  | [] => 0
  | y :: ys => if y = x then 0 else idxOf x ys + 1

/-- Element `x` occurs strictly before an occurrence of `y` in `l`. -/
def ListBefore (x y : α) (l : List α) : Prop :=
  ∃ l1 l2 l3, l = l1 ++ x :: (l2 ++ y :: l3)

/-- The dependency dictionary has distinct keys (Python dict semantics). -/
def NodupKeys (g : Graph) : Prop := (g.map Prod.fst).Nodup

instance (g : Graph) : Decidable (NodupKeys g) := by
  unfold NodupKeys
  infer_instance

/-- An invariant on every key and every dependency value of a graph. -/
def GraphProp (Q1 Q2 : String → Prop) (g : Graph) : Prop :=
  ∀ p ∈ g, Q1 p.1 ∧ ∀ x ∈ p.2, Q2 x

/-- The model (if any) the flatten loop keeps for one name, assuming no
lookup error occurs at that name. -/
def resolveSome (reg : List VClass) (n : String) : Option VClass :=
  match resolveOkName reg n with
  | .ok (some m) => some m
  | _ => none

/-- The dependency dictionary the A-B-C scenario builds. -/
def gABC : Graph := [("appabc_b", ["appabc_a"]), ("appabc_c", ["appabc_b"])]

/-- The dependency dictionary of the X-Y cycle scenario. -/
def gXY : Graph := [("appxy_x", ["appxy_y"]), ("appxy_y", ["appxy_x"])]

/-- A prior metadata state holding the JSON object with one key `owner`. -/
def stPrior : MvState :=
  { comment := some (.jsonOf (.jobj [("owner", Jval.jstr "ops")])), executed := [] }

/-- The drop plan of the A-B-C scenario. -/
def dsABC : List (List Pv) :=
  [[Pv.str "DROP VIEW IF EXISTS \"appabc_c\" ;", Pv.none],
   [Pv.str "DROP VIEW IF EXISTS \"appabc_b\" ;", Pv.none],
   [Pv.str "DROP VIEW IF EXISTS \"appabc_a\" ;", Pv.none]]

/-- The create plan of the A-B-C scenario. -/
def csABC : List (List Pv) :=
  [[Pv.str "CREATE VIEW \"appabc_a\" AS (SELECT 1)", Pv.none],
   [Pv.str "CREATE VIEW \"appabc_b\" AS (SELECT 2)", Pv.none],
   [Pv.str "CREATE VIEW \"appabc_c\" AS (SELECT 3)", Pv.none]]

example : sort_dependencies regABC "all" = .ok [clsA, clsB, clsC] := by decide

example : sort_dependencies regXY "all" =
    .error (.cycle [("appxy_x", ["appxy_y"]), ("appxy_y", ["appxy_x"])]) := by decide

example : sort_dependencies regSelf "all"
    = .error (.cycle [("appsf_s", ["appsf_s"])]) := by decide

example : sort_dependencies regScope "ns1" = .ok [clsNs2, clsNs1] := by decide

example : sort_dependencies regNoSql "all" = .ok [] := by decide

example : drop_all_statements regABC true "all" =
    .ok [[Pv.str "DROP VIEW IF EXISTS \"appabc_c\" ;", Pv.none],
         [Pv.str "DROP VIEW IF EXISTS \"appabc_b\" ;", Pv.none],
         [Pv.str "DROP VIEW IF EXISTS \"appabc_a\" ;", Pv.none]] := by decide

/-! Generic list lemmas about positions and order preservation. -/


theorem idxOf_cons_self [DecidableEq α] (x : α) (t : List α) : idxOf x (x :: t) = 0 := by
  simp [idxOf]

theorem idxOf_cons_ne [DecidableEq α] {a x : α} (t : List α) (h : a ≠ x) :
    idxOf x (a :: t) = idxOf x t + 1 := by
  simp [idxOf, h]

theorem idxOf_lt_length [DecidableEq α] {x : α} {l : List α} (h : x ∈ l) :
    idxOf x l < l.length := by
  induction l with
  | nil => cases h
  | cons y ys ih =>
    rcases eq_or_ne y x with rfl | hy
    · simp [idxOf]
    · have hx : x ∈ ys := by
        rcases List.mem_cons.mp h with rfl | h1
        · exact absurd rfl hy
        · exact h1
      have := ih hx
      rw [idxOf_cons_ne ys hy, List.length_cons]
      omega

theorem idxOf_append_left [DecidableEq α] {x : α} {l1 : List α} (l2 : List α) (h : x ∈ l1) :
    idxOf x (l1 ++ l2) = idxOf x l1 := by
  induction l1 with
  | nil => cases h
  | cons y ys ih =>
    rcases eq_or_ne y x with rfl | hy
    · rw [List.cons_append, idxOf_cons_self, idxOf_cons_self]
    · have hx : x ∈ ys := by
        rcases List.mem_cons.mp h with rfl | h1
        · exact absurd rfl hy
        · exact h1
      rw [List.cons_append, idxOf_cons_ne _ hy, idxOf_cons_ne _ hy, ih hx]

theorem idxOf_append_right [DecidableEq α] {x : α} {l1 : List α} (l2 : List α) (h : x ∉ l1) :
    idxOf x (l1 ++ l2) = l1.length + idxOf x l2 := by
  induction l1 with
  | nil => simp
  | cons y ys ih =>
    have hy : y ≠ x := fun he => h (he ▸ List.mem_cons_self y ys)
    have hx : x ∉ ys := fun hm => h (List.mem_cons_of_mem y hm)
    rw [List.cons_append, idxOf_cons_ne _ hy, ih hx, List.length_cons]
    omega


theorem before_of_idxOf_lt [DecidableEq α] {x y : α} {l : List α}
    (hx : x ∈ l) (hy : y ∈ l) (h : idxOf x l < idxOf y l) : ListBefore x y l := by
  induction l with
  | nil => cases hx
  | cons a t ih =>
    rcases eq_or_ne a x with rfl | hax
    · have hyx : y ≠ a := by
        intro he
        subst he
        exact lt_irrefl _ h
      have hyt : y ∈ t := by
        rcases List.mem_cons.mp hy with rfl | h1
        · exact absurd rfl hyx
        · exact h1
      rcases List.append_of_mem hyt with ⟨t1, t2, rfl⟩
      exact ⟨[], t1, t2, rfl⟩
    · have hay : a ≠ y := by
        intro he
        subst he
        rw [idxOf_cons_self] at h
        exact Nat.not_lt_zero _ h
      have hxt : x ∈ t := by
        rcases List.mem_cons.mp hx with rfl | h1
        · exact absurd rfl hax
        · exact h1
      have hyt : y ∈ t := by
        rcases List.mem_cons.mp hy with rfl | h1
        · exact absurd rfl hay
        · exact h1
      have hlt : idxOf x t < idxOf y t := by
        rw [idxOf_cons_ne t hax, idxOf_cons_ne t hay] at h
        omega
      rcases ih hxt hyt hlt with ⟨l1, l2, l3, rfl⟩
      exact ⟨a :: l1, l2, l3, rfl⟩

theorem idxOf_prefix_le [DecidableEq α] (x : α) (l1 r : List α) :
    idxOf x (l1 ++ x :: r) ≤ l1.length := by
  induction l1 with
  | nil => simp [idxOf]
  | cons y ys ih =>
    rcases eq_or_ne y x with rfl | hy
    · rw [List.cons_append, idxOf_cons_self]
      omega
    · rw [List.cons_append, idxOf_cons_ne _ hy, List.length_cons]
      omega

theorem idxOf_lt_of_before [DecidableEq α] {x y : α} {l : List α}
    (h : ListBefore x y l) (hnd : l.Nodup) : idxOf x l < idxOf y l := by
  rcases h with ⟨l1, l2, l3, rfl⟩
  have hxle : idxOf x (l1 ++ x :: (l2 ++ y :: l3)) ≤ l1.length := idxOf_prefix_le x l1 _
  rcases List.nodup_append.mp hnd with ⟨-, hnd2, hdisj⟩
  have hy1 : y ∉ l1 := fun hm => (hdisj hm) (by simp)
  rcases List.nodup_cons.mp hnd2 with ⟨hxnot, hnd3⟩
  have hxy : x ≠ y := by
    intro he
    exact hxnot (by simp [he])
  rcases List.nodup_append.mp hnd3 with ⟨-, -, hdisj2⟩
  have hy2 : y ∉ l2 := fun hm => (hdisj2 hm) (by simp)
  have hyidx : idxOf y (l1 ++ x :: (l2 ++ y :: l3)) = l1.length + (l2.length + 1) := by
    rw [idxOf_append_right _ hy1, idxOf_cons_ne _ hxy, idxOf_append_right _ hy2,
      idxOf_cons_self]
  omega

theorem listBefore_filterMap {α β : Type} {f : α → Option β} {a b : α} {x y : β} {ns : List α}
    (h : ListBefore a b ns) (hfa : f a = some x) (hfb : f b = some y) :
    ListBefore x y (ns.filterMap f) := by
  rcases h with ⟨l1, l2, l3, rfl⟩
  refine ⟨l1.filterMap f, l2.filterMap f, l3.filterMap f, ?_⟩
  simp [List.filterMap_append, List.filterMap_cons, hfa, hfb]

theorem filterMap_nodup {α β : Type} {f : α → Option β} {ns : List α}
    (hnd : ns.Nodup)
    (hinj : ∀ n1 n2 z, n1 ∈ ns → n2 ∈ ns → f n1 = some z → f n2 = some z → n1 = n2) :
    (ns.filterMap f).Nodup := by
  induction ns with
  | nil => simp
  | cons n t ih =>
    rcases List.nodup_cons.mp hnd with ⟨hn, hndt⟩
    have iht := ih hndt (fun n1 n2 z h1 h2 => hinj n1 n2 z (List.mem_cons_of_mem n h1)
      (List.mem_cons_of_mem n h2))
    rw [List.filterMap_cons]
    cases hfn : f n with
    | none => exact iht
    | some z =>
      refine List.nodup_cons.mpr ⟨?_, iht⟩
      intro hz
      rcases List.mem_filterMap.mp hz with ⟨n2, hn2, hfn2⟩
      have heq := hinj n n2 z (List.mem_cons_self n t) (List.mem_cons_of_mem n hn2) hfn hfn2
      exact hn (heq ▸ hn2)

/-! Invariants of the topological sorting loop. -/


theorem insertSorted_perm (x : String) (l : List String) :
    (insertSorted x l).Perm (x :: l) := by
  induction l with
  | nil => exact List.Perm.refl _
  | cons y ys ih =>
    by_cases h : strLe x y
    · simp [insertSorted, h]
    · simp only [insertSorted, if_neg h]
      exact (ih.cons y).trans (List.Perm.swap x y ys)

theorem sortLevel_perm (l : List String) : (sortLevel l).Perm l := by
  induction l with
  | nil => exact List.Perm.refl _
  | cons x xs ih => exact (insertSorted_perm x (sortLevel xs)).trans (ih.cons x)

theorem mem_sortLevel {a : String} {l : List String} : a ∈ sortLevel l ↔ a ∈ l :=
  (sortLevel_perm l).mem_iff

theorem sortLevel_nodup {l : List String} (h : l.Nodup) : (sortLevel l).Nodup :=
  (sortLevel_perm l).nodup_iff.mpr h

theorem dedupKeep_cons_pos {x : String} {xs : List String} (h : xs.contains x = true) :
    dedupKeep (x :: xs) = dedupKeep xs := by
  simp only [dedupKeep]
  rw [if_pos h]

theorem dedupKeep_cons_neg {x : String} {xs : List String} (h : ¬ xs.contains x = true) :
    dedupKeep (x :: xs) = x :: dedupKeep xs := by
  simp only [dedupKeep]
  rw [if_neg h]

theorem mem_dedupKeep {a : String} {l : List String} : a ∈ dedupKeep l ↔ a ∈ l := by
  induction l with
  | nil => simp [dedupKeep]
  | cons x xs ih =>
    by_cases h : xs.contains x
    · have hx : x ∈ xs := by simpa using h
      rw [dedupKeep_cons_pos h, ih]
      constructor
      · exact List.mem_cons_of_mem x
      · intro hm
        rcases List.mem_cons.mp hm with rfl | hm2
        · exact hx
        · exact hm2
    · rw [dedupKeep_cons_neg h]
      simp [ih]

theorem dedupKeep_nodup (l : List String) : (dedupKeep l).Nodup := by
  induction l with
  | nil => simp [dedupKeep]
  | cons x xs ih =>
    by_cases h : xs.contains x
    · rw [dedupKeep_cons_pos h]
      exact ih
    · have hx : x ∉ xs := by simpa using h
      rw [dedupKeep_cons_neg h]
      exact List.nodup_cons.mpr ⟨fun hm => hx (mem_dedupKeep.mp hm), ih⟩

theorem nodupKeys_val_unique {data : Graph} (h : NodupKeys data) {k : String}
    {a b : List String} (ha : (k, a) ∈ data) (hb : (k, b) ∈ data) : a = b := by
  induction data with
  | nil => cases ha
  | cons p rest ih =>
    have h2 : p.1 ∉ rest.map Prod.fst ∧ NodupKeys rest := by
      have h3 := h
      simp only [NodupKeys, List.map_cons, List.nodup_cons] at h3
      exact h3
    rcases List.mem_cons.mp ha with ha1 | ha2
    · rcases List.mem_cons.mp hb with hb1 | hb2
      · exact congrArg Prod.snd (ha1.trans hb1.symm)
      · exfalso
        apply h2.1
        rw [← ha1]
        exact List.mem_map.mpr ⟨(k, b), hb2, rfl⟩
    · rcases List.mem_cons.mp hb with hb1 | hb2
      · exfalso
        apply h2.1
        rw [← hb1]
        exact List.mem_map.mpr ⟨(k, a), ha2, rfl⟩
      · exact ih h2.2 ha2 hb2

theorem mem_freeKeys {data : Graph} {k : String} :
    k ∈ freeKeys data ↔ ∃ p ∈ data, p.1 = k ∧ p.2 = [] := by
  simp only [freeKeys, List.mem_map, List.mem_filter, List.isEmpty_iff]
  tauto

theorem not_free_of_edge {data : Graph} (hnd : NodupKeys data) {k : String}
    {vs : List String} {v : String} (hmem : (k, vs) ∈ data) (hv : v ∈ vs) :
    k ∉ freeKeys data := by
  intro hk
  obtain ⟨⟨p1, p2⟩, hp, hpk, hp2⟩ := mem_freeKeys.mp hk
  dsimp at hpk hp2
  subst hpk
  subst hp2
  have hvse := nodupKeys_val_unique hnd hmem hp
  rw [hvse] at hv
  cases hv

theorem removeKeys_map_fst (data : Graph) (ordered : List String) :
    (removeKeys data ordered).map Prod.fst
      = (data.filter (fun p => !(ordered.contains p.1))).map Prod.fst := by
  unfold removeKeys
  rw [List.map_map]
  rfl

theorem nodupKeys_removeKeys {data : Graph} (h : NodupKeys data) (ordered : List String) :
    NodupKeys (removeKeys data ordered) := by
  unfold NodupKeys
  rw [removeKeys_map_fst]
  exact List.Nodup.sublist ((List.filter_sublist data).map Prod.fst) h

theorem mem_removeKeys {data : Graph} {ordered : List String} {k : String}
    {vs : List String} (hmem : (k, vs) ∈ data) (hk : k ∉ ordered) :
    (k, vs.filter (fun v => !(ordered.contains v))) ∈ removeKeys data ordered := by
  unfold removeKeys
  apply List.mem_map.mpr
  refine ⟨(k, vs), ?_, rfl⟩
  exact List.mem_filter.mpr ⟨hmem, by simpa using hk⟩

theorem removeKeys_entry_src {data : Graph} {ordered : List String}
    {p : String × List String} (h : p ∈ removeKeys data ordered) :
    ∃ vs0, (p.1, vs0) ∈ data ∧ p.1 ∉ ordered := by
  unfold removeKeys at h
  rcases List.mem_map.mp h with ⟨q, hq, rfl⟩
  rcases List.mem_filter.mp hq with ⟨hqd, hqc⟩
  exact ⟨q.2, hqd, by simpa using hqc⟩

theorem flatSorted_cons (o : List String) (L : List (List String)) :
    flatSorted (o :: L) = sortLevel o ++ flatSorted L := by
  simp [flatSorted]

theorem toposortLoop_ordering : ∀ {fuel : Nat} {data : Graph} {L : List (List String)},
    toposortLoop fuel data = .ok L → NodupKeys data →
    ∀ {k : String} {vs : List String} {v : String}, (k, vs) ∈ data → v ∈ vs →
    idxOf v (flatSorted L) < idxOf k (flatSorted L) := by
  intro fuel
  induction fuel with
  | zero =>
    intro data L h hnd k vs v hmem hv
    cases data with
    | nil => cases hmem
    | cons p rest => simp [toposortLoop] at h
  | succ fuel ih =>
    intro data L h hnd k vs v hmem hv
    cases data with
    | nil => cases hmem
    | cons p rest =>
      simp only [toposortLoop] at h
      by_cases hfree : (freeKeys (p :: rest)).isEmpty
      · rw [if_pos hfree] at h
        cases h
      · rw [if_neg hfree] at h
        cases hrec : toposortLoop fuel (removeKeys (p :: rest) (freeKeys (p :: rest))) with
        | error e =>
          rw [hrec] at h
          cases h
        | ok L2 =>
          rw [hrec] at h
          cases h
          have hkfree : k ∉ freeKeys (p :: rest) := not_free_of_edge hnd hmem hv
          have hksort : k ∉ sortLevel (freeKeys (p :: rest)) :=
            fun hm => hkfree (mem_sortLevel.mp hm)
          rw [flatSorted_cons]
          by_cases hvo : v ∈ freeKeys (p :: rest)
          · have hvs : v ∈ sortLevel (freeKeys (p :: rest)) := mem_sortLevel.mpr hvo
            rw [idxOf_append_left _ hvs, idxOf_append_right _ hksort]
            have := idxOf_lt_length hvs
            omega
          · have hvsort : v ∉ sortLevel (freeKeys (p :: rest)) :=
              fun hm => hvo (mem_sortLevel.mp hm)
            have hedge2 : (k, vs.filter (fun x => !((freeKeys (p :: rest)).contains x)))
                ∈ removeKeys (p :: rest) (freeKeys (p :: rest)) := mem_removeKeys hmem hkfree
            have hv2 : v ∈ vs.filter (fun x => !((freeKeys (p :: rest)).contains x)) :=
              List.mem_filter.mpr ⟨hv, by simpa using hvo⟩
            have hih := ih hrec (nodupKeys_removeKeys hnd _) hedge2 hv2
            rw [idxOf_append_right _ hvsort, idxOf_append_right _ hksort]
            omega

theorem toposortLoop_key_mem : ∀ {fuel : Nat} {data : Graph} {L : List (List String)},
    toposortLoop fuel data = .ok L →
    ∀ {k : String} {vs : List String}, (k, vs) ∈ data → k ∈ flatSorted L := by
  intro fuel
  induction fuel with
  | zero =>
    intro data L h k vs hmem
    cases data with
    | nil => cases hmem
    | cons p rest => simp [toposortLoop] at h
  | succ fuel ih =>
    intro data L h k vs hmem
    cases data with
    | nil => cases hmem
    | cons p rest =>
      simp only [toposortLoop] at h
      by_cases hfree : (freeKeys (p :: rest)).isEmpty
      · rw [if_pos hfree] at h
        cases h
      · rw [if_neg hfree] at h
        cases hrec : toposortLoop fuel (removeKeys (p :: rest) (freeKeys (p :: rest))) with
        | error e =>
          rw [hrec] at h
          cases h
        | ok L2 =>
          rw [hrec] at h
          cases h
          rw [flatSorted_cons]
          by_cases hko : k ∈ freeKeys (p :: rest)
          · exact List.mem_append_left _ (mem_sortLevel.mpr hko)
          · exact List.mem_append_right _ (ih hrec (mem_removeKeys hmem hko))

theorem toposortLoop_flat_sub : ∀ {fuel : Nat} {data : Graph} {L : List (List String)},
    toposortLoop fuel data = .ok L →
    ∀ {n : String}, n ∈ flatSorted L → ∃ vs, (n, vs) ∈ data := by
  intro fuel
  induction fuel with
  | zero =>
    intro data L h n hn
    cases data with
    | nil =>
      cases h
      simp [flatSorted] at hn
    | cons p rest => simp [toposortLoop] at h
  | succ fuel ih =>
    intro data L h n hn
    cases data with
    | nil =>
      cases h
      simp [flatSorted] at hn
    | cons p rest =>
      simp only [toposortLoop] at h
      by_cases hfree : (freeKeys (p :: rest)).isEmpty
      · rw [if_pos hfree] at h
        cases h
      · rw [if_neg hfree] at h
        cases hrec : toposortLoop fuel (removeKeys (p :: rest) (freeKeys (p :: rest))) with
        | error e =>
          rw [hrec] at h
          cases h
        | ok L2 =>
          rw [hrec] at h
          cases h
          rw [flatSorted_cons] at hn
          rcases List.mem_append.mp hn with hl | hr
          · have hfk : n ∈ freeKeys (p :: rest) := mem_sortLevel.mp hl
            obtain ⟨⟨q1, q2⟩, hq, hq1, hq2⟩ := mem_freeKeys.mp hfk
            dsimp at hq1 hq2
            subst hq1
            subst hq2
            exact ⟨[], hq⟩
          · rcases ih hrec hr with ⟨vs, hvs⟩
            rcases removeKeys_entry_src hvs with ⟨vs0, hv0, -⟩
            exact ⟨vs0, hv0⟩

theorem toposortLoop_flat_nodup : ∀ {fuel : Nat} {data : Graph} {L : List (List String)},
    toposortLoop fuel data = .ok L → NodupKeys data → (flatSorted L).Nodup := by
  intro fuel
  induction fuel with
  | zero =>
    intro data L h hnd
    cases data with
    | nil =>
      cases h
      simp [flatSorted]
    | cons p rest => simp [toposortLoop] at h
  | succ fuel ih =>
    intro data L h hnd
    cases data with
    | nil =>
      cases h
      simp [flatSorted]
    | cons p rest =>
      simp only [toposortLoop] at h
      by_cases hfree : (freeKeys (p :: rest)).isEmpty
      · rw [if_pos hfree] at h
        cases h
      · rw [if_neg hfree] at h
        cases hrec : toposortLoop fuel (removeKeys (p :: rest) (freeKeys (p :: rest))) with
        | error e =>
          rw [hrec] at h
          cases h
        | ok L2 =>
          rw [hrec] at h
          cases h
          rw [flatSorted_cons]
          apply List.nodup_append.mpr
          refine ⟨?_, ih hrec (nodupKeys_removeKeys hnd _), ?_⟩
          · apply sortLevel_nodup
            unfold freeKeys
            exact List.Nodup.sublist ((List.filter_sublist _).map Prod.fst) hnd
          · intro a ha hb
            have hao : a ∈ freeKeys (p :: rest) := mem_sortLevel.mp ha
            rcases toposortLoop_flat_sub hrec hb with ⟨vs, hvs⟩
            rcases removeKeys_entry_src hvs with ⟨vs0, -, hnot⟩
            exact hnot hao

/-! Properties of toposort's preprocessing. -/

theorem nodupKeys_prepare {g : Graph} (h : NodupKeys g) : NodupKeys (prepare g) := by
  unfold NodupKeys prepare
  rw [List.map_append, List.map_map]
  have hm : ((extraItems g).map (Prod.fst ∘ fun x => (x, ([] : List String))))
      = extraItems g := by
    rw [show (Prod.fst ∘ fun x : String => (x, ([] : List String))) = id from rfl, List.map_id]
  rw [hm]
  apply List.nodup_append.mpr
  refine ⟨h, dedupKeep_nodup _, ?_⟩
  intro a ha hb
  have hb2 : a ∈ (g.flatMap Prod.snd).filter
      (fun v => !(graphKeys g).contains v) := mem_dedupKeep.mp hb
  rcases List.mem_filter.mp hb2 with ⟨-, hno⟩
  have hnot : a ∉ graphKeys g := by simpa using hno
  unfold graphKeys at hnot
  exact hnot ha

theorem prepare_key_src {g : Graph} {n : String} {vs : List String}
    (h : (n, vs) ∈ prepare g) :
    (∃ vs0, (n, vs0) ∈ g) ∨ (∃ p ∈ g, n ∈ p.2) := by
  rcases List.mem_append.mp h with hl | hr
  · exact Or.inl ⟨vs, hl⟩
  · rcases List.mem_map.mp hr with ⟨x, hx, heq⟩
    have hxn : x = n := congrArg Prod.fst heq
    subst hxn
    have hx2 : x ∈ g.flatMap Prod.snd := (List.mem_filter.mp (mem_dedupKeep.mp hx)).1
    rcases List.mem_flatMap.mp hx2 with ⟨q, hq, hvq⟩
    exact Or.inr ⟨q, hq, hvq⟩

/-! Properties of the dependency-dictionary construction. -/

theorem nodupKeys_dictAdd {d : Graph} (h : NodupKeys d) (k v : String) :
    NodupKeys (dictAdd d k v) := by
  unfold dictAdd
  by_cases hany : d.any (fun p => p.1 == k)
  · rw [if_pos hany]
    unfold NodupKeys
    have hmf : (d.map (fun p =>
        if p.1 == k then (p.1, if p.2.contains v then p.2 else p.2 ++ [v]) else p)).map Prod.fst
        = d.map Prod.fst := by
      rw [List.map_map]
      apply List.map_congr_left
      intro p hp
      by_cases hpk : p.1 = k
      · simp [hpk]
      · simp [hpk]
    rw [hmf]
    exact h
  · rw [if_neg hany]
    unfold NodupKeys
    rw [List.map_append]
    apply List.nodup_append.mpr
    refine ⟨h, by simp, ?_⟩
    intro a ha hb
    simp only [List.map_cons, List.map_nil, List.mem_singleton] at hb
    subst hb
    rcases List.mem_map.mp ha with ⟨p, hp, hpk⟩
    apply hany
    exact List.any_eq_true.mpr ⟨p, hp, by simp [hpk]⟩

theorem graphEdge_dictAdd {d : Graph} {a b : String} (h : GraphEdge d a b) (k v : String) :
    GraphEdge (dictAdd d k v) a b := by
  rcases h with ⟨vs, hmem, hb⟩
  unfold dictAdd
  by_cases hany : d.any (fun p => p.1 == k)
  · rw [if_pos hany]
    by_cases hak : a == k
    · refine ⟨if vs.contains v then vs else vs ++ [v], ?_, ?_⟩
      · apply List.mem_map.mpr
        exact ⟨(a, vs), hmem, by simp [hak]⟩
      · by_cases hc : vs.contains v
        · rw [if_pos hc]
          exact hb
        · rw [if_neg hc]
          exact List.mem_append_left _ hb
    · refine ⟨vs, ?_, hb⟩
      apply List.mem_map.mpr
      exact ⟨(a, vs), hmem, by simp [hak]⟩
  · rw [if_neg hany]
    exact ⟨vs, List.mem_append_left _ hmem, hb⟩

theorem graphEdge_dictAdd_self (d : Graph) (k v : String) :
    GraphEdge (dictAdd d k v) k v := by
  unfold dictAdd
  by_cases hany : d.any (fun p => p.1 == k)
  · rw [if_pos hany]
    rcases List.any_eq_true.mp hany with ⟨p, hp, hpk⟩
    have hp1 : p.1 = k := by simpa using hpk
    refine ⟨if p.2.contains v then p.2 else p.2 ++ [v], ?_, ?_⟩
    · apply List.mem_map.mpr
      refine ⟨p, hp, ?_⟩
      simp [hpk, hp1]
    · by_cases hc : p.2.contains v
      · rw [if_pos hc]
        simpa using hc
      · rw [if_neg hc]
        simp
  · rw [if_neg hany]
    exact ⟨[v], List.mem_append_right _ (by simp), by simp⟩


theorem graphProp_dictAdd {Q1 Q2 : String → Prop} {d : Graph} (h : GraphProp Q1 Q2 d)
    {k v : String} (hk : Q1 k) (hv : Q2 v) : GraphProp Q1 Q2 (dictAdd d k v) := by
  unfold dictAdd
  by_cases hany : d.any (fun p => p.1 == k)
  · rw [if_pos hany]
    intro p hp
    rcases List.mem_map.mp hp with ⟨q, hq, heq⟩
    rw [← heq]
    by_cases hqk : q.1 == k
    · simp only [hqk, if_pos]
      refine ⟨(h q hq).1, ?_⟩
      intro x hx
      by_cases hc : q.2.contains v
      · rw [if_pos hc] at hx
        exact (h q hq).2 x hx
      · rw [if_neg hc] at hx
        rcases List.mem_append.mp hx with hx1 | hx2
        · exact (h q hq).2 x hx1
        · simp only [List.mem_singleton] at hx2
          subst hx2
          exact hv
    · simp only [hqk]
      simp only [Bool.false_eq_true, if_false]
      exact h q hq
  · rw [if_neg hany]
    intro p hp
    rcases List.mem_append.mp hp with hl | hr
    · exact h p hl
    · simp only [List.mem_singleton] at hr
      subst hr
      refine ⟨hk, ?_⟩
      intro x hx
      simp only [List.mem_singleton] at hx
      subst hx
      exact hv

theorem addDeps_nodupKeys {reg : List VClass} {cstr : String} :
    ∀ {deps : List (String × String)} {acc g : Graph},
    addDeps reg cstr deps acc = .ok g → NodupKeys acc → NodupKeys g := by
  intro deps
  induction deps with
  | nil =>
    intro acc g h hacc
    cases h
    exact hacc
  | cons dm rest ih =>
    intro acc g h hacc
    rcases dm with ⟨a, m⟩
    rw [addDeps] at h
    cases hget : get_model reg a m with
    | none =>
      rw [hget] at h
      cases h
    | some dep =>
      rw [hget] at h
      exact ih h (nodupKeys_dictAdd hacc _ _)

theorem addDeps_edge_mono {reg : List VClass} {cstr : String} :
    ∀ {deps : List (String × String)} {acc g : Graph} {x y : String},
    addDeps reg cstr deps acc = .ok g → GraphEdge acc x y → GraphEdge g x y := by
  intro deps
  induction deps with
  | nil =>
    intro acc g x y h he
    cases h
    exact he
  | cons dm rest ih =>
    intro acc g x y h he
    rcases dm with ⟨a, m⟩
    rw [addDeps] at h
    cases hget : get_model reg a m with
    | none =>
      rw [hget] at h
      cases h
    | some dep =>
      rw [hget] at h
      exact ih h (graphEdge_dictAdd he _ _)

theorem addDeps_edge_new {reg : List VClass} {cstr : String} :
    ∀ {deps : List (String × String)} {acc g : Graph} {a m : String} {dep : VClass},
    addDeps reg cstr deps acc = .ok g → (a, m) ∈ deps →
    get_model reg a m = some dep →
    GraphEdge g cstr (model_default_table_name dep) := by
  intro deps
  induction deps with
  | nil =>
    intro acc g a m dep h hmem
    cases hmem
  | cons dm rest ih =>
    intro acc g a m dep h hmem hres
    rcases dm with ⟨a0, m0⟩
    rw [addDeps] at h
    rcases List.mem_cons.mp hmem with hhead | htail
    · have ha : a0 = a := (congrArg Prod.fst hhead.symm)
      have hm : m0 = m := (congrArg Prod.snd hhead.symm)
      subst ha
      subst hm
      rw [hres] at h
      exact addDeps_edge_mono h (graphEdge_dictAdd_self _ _ _)
    · cases hget : get_model reg a0 m0 with
      | none =>
        rw [hget] at h
        cases h
      | some dep0 =>
        rw [hget] at h
        exact ih h htail hres

theorem addDeps_graphProp {reg : List VClass} {cstr : String} {Q1 Q2 : String → Prop} :
    ∀ {deps : List (String × String)} {acc g : Graph},
    addDeps reg cstr deps acc = .ok g → GraphProp Q1 Q2 acc → Q1 cstr →
    (∀ a m dep, (a, m) ∈ deps → get_model reg a m = some dep →
      Q2 (model_default_table_name dep)) →
    GraphProp Q1 Q2 g := by
  intro deps
  induction deps with
  | nil =>
    intro acc g h hacc _ _
    cases h
    exact hacc
  | cons dm rest ih =>
    intro acc g h hacc hk hdeps
    rcases dm with ⟨a, m⟩
    rw [addDeps] at h
    cases hget : get_model reg a m with
    | none =>
      rw [hget] at h
      cases h
    | some dep =>
      rw [hget] at h
      refine ih h (graphProp_dictAdd hacc hk ?_) hk ?_
      · exact hdeps a m dep (List.mem_cons_self _ _) hget
      · intro a2 m2 dep2 hmem2 hres2
        exact hdeps a2 m2 dep2 (List.mem_cons_of_mem _ hmem2) hres2

theorem buildGraphAux_nodupKeys {reg : List VClass} {apps : String} :
    ∀ {cs : List VClass} {acc g : Graph},
    buildGraphAux reg apps cs acc = .ok g → NodupKeys acc → NodupKeys g := by
  intro cs
  induction cs with
  | nil =>
    intro acc g h hacc
    cases h
    exact hacc
  | cons c rest ih =>
    intro acc g h hacc
    rw [buildGraphAux] at h
    by_cases hv : c.viewed = false
    · rw [if_pos hv] at h
      exact ih h hacc
    · rw [if_neg hv] at h
      by_cases hsc : inScope apps c = false
      · rw [if_pos hsc] at h
        exact ih h hacc
      · rw [if_neg hsc] at h
        by_cases hab : c.abstract = true
        · rw [if_pos hab] at h
          exact ih h hacc
        · rw [if_neg hab] at h
          cases hadd : addDeps reg (model_default_table_name c) c.dependencies acc with
          | error e =>
            rw [hadd] at h
            cases h
          | ok acc2 =>
            rw [hadd] at h
            exact ih h (addDeps_nodupKeys hadd hacc)

theorem buildGraphAux_edge_mono {reg : List VClass} {apps : String} :
    ∀ {cs : List VClass} {acc g : Graph} {x y : String},
    buildGraphAux reg apps cs acc = .ok g → GraphEdge acc x y → GraphEdge g x y := by
  intro cs
  induction cs with
  | nil =>
    intro acc g x y h he
    cases h
    exact he
  | cons c rest ih =>
    intro acc g x y h he
    rw [buildGraphAux] at h
    by_cases hv : c.viewed = false
    · rw [if_pos hv] at h
      exact ih h he
    · rw [if_neg hv] at h
      by_cases hsc : inScope apps c = false
      · rw [if_pos hsc] at h
        exact ih h he
      · rw [if_neg hsc] at h
        by_cases hab : c.abstract = true
        · rw [if_pos hab] at h
          exact ih h he
        · rw [if_neg hab] at h
          cases hadd : addDeps reg (model_default_table_name c) c.dependencies acc with
          | error e =>
            rw [hadd] at h
            cases h
          | ok acc2 =>
            rw [hadd] at h
            exact ih h (addDeps_edge_mono hadd he)

theorem enumOk_parts {apps : String} {c : VClass} (h : enumOk apps c = true) :
    ¬ c.viewed = false ∧ ¬ inScope apps c = false ∧ ¬ c.abstract = true := by
  unfold enumOk at h
  simp only [Bool.and_eq_true, Bool.not_eq_true'] at h
  refine ⟨?_, ?_, ?_⟩
  · simp [h.1.1]
  · simp [h.1.2]
  · simp [h.2]

theorem buildGraphAux_edge_new {reg : List VClass} {apps : String} :
    ∀ {cs : List VClass} {acc g : Graph} {c : VClass} {a m : String} {dep : VClass},
    buildGraphAux reg apps cs acc = .ok g → c ∈ cs → enumOk apps c = true →
    (a, m) ∈ c.dependencies → get_model reg a m = some dep →
    GraphEdge g (model_default_table_name c) (model_default_table_name dep) := by
  intro cs
  induction cs with
  | nil =>
    intro acc g c a m dep h hmem
    cases hmem
  | cons c0 rest ih =>
    intro acc g c a m dep h hmem henum hdep hres
    rw [buildGraphAux] at h
    rcases List.mem_cons.mp hmem with rfl | htail
    · rcases enumOk_parts henum with ⟨hv, hsc, hab⟩
      rw [if_neg hv, if_neg hsc, if_neg hab] at h
      cases hadd : addDeps reg (model_default_table_name c) c.dependencies acc with
      | error e =>
        rw [hadd] at h
        cases h
      | ok acc2 =>
        rw [hadd] at h
        exact buildGraphAux_edge_mono h (addDeps_edge_new hadd hdep hres)
    · by_cases hv : c0.viewed = false
      · rw [if_pos hv] at h
        exact ih h htail henum hdep hres
      · rw [if_neg hv] at h
        by_cases hsc : inScope apps c0 = false
        · rw [if_pos hsc] at h
          exact ih h htail henum hdep hres
        · rw [if_neg hsc] at h
          by_cases hab : c0.abstract = true
          · rw [if_pos hab] at h
            exact ih h htail henum hdep hres
          · rw [if_neg hab] at h
            cases hadd : addDeps reg (model_default_table_name c0) c0.dependencies acc with
            | error e =>
              rw [hadd] at h
              cases h
            | ok acc2 =>
              rw [hadd] at h
              exact ih h htail henum hdep hres

theorem buildGraphAux_graphProp {reg : List VClass} {apps : String} {Q1 Q2 : String → Prop} :
    ∀ {cs : List VClass} {acc g : Graph},
    buildGraphAux reg apps cs acc = .ok g → GraphProp Q1 Q2 acc →
    (∀ c ∈ cs, enumOk apps c = true → Q1 (model_default_table_name c)) →
    (∀ c ∈ cs, enumOk apps c = true → ∀ a m dep, (a, m) ∈ c.dependencies →
      get_model reg a m = some dep → Q2 (model_default_table_name dep)) →
    GraphProp Q1 Q2 g := by
  intro cs
  induction cs with
  | nil =>
    intro acc g h hacc _ _
    cases h
    exact hacc
  | cons c0 rest ih =>
    intro acc g h hacc hq1 hq2
    rw [buildGraphAux] at h
    have hq1r : ∀ c ∈ rest, enumOk apps c = true → Q1 (model_default_table_name c) :=
      fun c hm => hq1 c (List.mem_cons_of_mem _ hm)
    have hq2r : ∀ c ∈ rest, enumOk apps c = true → ∀ a m dep, (a, m) ∈ c.dependencies →
        get_model reg a m = some dep → Q2 (model_default_table_name dep) :=
      fun c hm => hq2 c (List.mem_cons_of_mem _ hm)
    by_cases hv : c0.viewed = false
    · rw [if_pos hv] at h
      exact ih h hacc hq1r hq2r
    · rw [if_neg hv] at h
      by_cases hsc : inScope apps c0 = false
      · rw [if_pos hsc] at h
        exact ih h hacc hq1r hq2r
      · rw [if_neg hsc] at h
        by_cases hab : c0.abstract = true
        · rw [if_pos hab] at h
          exact ih h hacc hq1r hq2r
        · rw [if_neg hab] at h
          have henum : enumOk apps c0 = true := by
            unfold enumOk
            simp only [Bool.and_eq_true]
            refine ⟨⟨?_, ?_⟩, ?_⟩
            · revert hv
              cases c0.viewed <;> simp
            · revert hsc
              cases hin : inScope apps c0 <;> simp
            · revert hab
              cases c0.abstract <;> simp
          cases hadd : addDeps reg (model_default_table_name c0) c0.dependencies acc with
          | error e =>
            rw [hadd] at h
            cases h
          | ok acc2 =>
            rw [hadd] at h
            refine ih h (addDeps_graphProp hadd hacc
              (hq1 c0 (List.mem_cons_self _ _) henum) ?_) hq1r hq2r
            intro a m dep hmem hres
            exact hq2 c0 (List.mem_cons_self _ _) henum a m dep hmem hres

/-! String lemmas for canonical table names. -/

theorem string_mk_append (l1 l2 : List Char) :
    String.mk l1 ++ String.mk l2 = String.mk (l1 ++ l2) := rfl

theorem string_mk_data (s : String) : String.mk s.data = s := rfl

theorem lowerStr_append (s t : String) : lowerStr (s ++ t) = lowerStr s ++ lowerStr t := by
  show String.mk ((s.data ++ t.data).map lowerChar)
      = String.mk (s.data.map lowerChar) ++ String.mk (t.data.map lowerChar)
  rw [string_mk_append, List.map_append]

theorem lowerStr_underscore : lowerStr "_" = "_" := by decide

theorem wf_mdtn {c : VClass} (h : WFclass c) :
    model_default_table_name c = c.app_label ++ "_" ++ c.model_name := by
  rcases h with ⟨h1, h2, -, -, h5⟩
  unfold model_default_table_name default_table_name truncate_name
  rw [lowerStr_append, lowerStr_append, lowerStr_underscore, h1, h2, if_pos h5]

theorem takeWhile_ne_underscore {l1 l2 : List Char} (h : '_' ∉ l1) :
    (l1 ++ '_' :: l2).takeWhile (fun c => c ≠ '_') = l1 := by
  induction l1 with
  | nil => simp [List.takeWhile_cons]
  | cons c cs ih =>
    have hc : c ≠ '_' := fun he => h (he ▸ List.mem_cons_self c cs)
    have hcs : '_' ∉ cs := fun hm => h (List.mem_cons_of_mem c hm)
    rw [List.cons_append, List.takeWhile_cons, if_pos (by simp [hc]), ih hcs]

theorem splitLastUnderscore_append {app model : String} (hm : '_' ∉ model.data) :
    splitLastUnderscore (app ++ "_" ++ model) = (app, model) := by
  unfold splitLastUnderscore
  have hdata : (app ++ "_" ++ model).data = (app.data ++ ['_']) ++ model.data := by
    rw [String.data_append, String.data_append]
  have hmr : '_' ∉ model.data.reverse := by simpa using hm
  have hrev : (app ++ "_" ++ model).data.reverse
      = model.data.reverse ++ '_' :: app.data.reverse := by
    rw [hdata, List.reverse_append, List.reverse_append]
    simp
  rw [hrev, takeWhile_ne_underscore hmr]
  have hlen : model.data.reverse.length
      ≠ (model.data.reverse ++ '_' :: app.data.reverse).length := by
    rw [List.length_append, List.length_cons]
    omega
  rw [if_neg hlen]
  have hdrop : (model.data.reverse ++ '_' :: app.data.reverse).drop
      (model.data.reverse.length + 1) = app.data.reverse := by
    rw [List.drop_append 1]
    simp
  rw [hdrop]
  simp [string_mk_data]

/-! Registry lookups under well-formedness. -/

theorem get_model_sound {reg : List VClass} {a m : String} {d : VClass}
    (h : get_model reg a m = some d) :
    d ∈ reg ∧ d.app_label = lowerStr a ∧ d.model_name = lowerStr m := by
  unfold get_model at h
  refine ⟨List.mem_of_find?_eq_some h, ?_⟩
  have h2 := List.find?_some h
  simp only [Bool.and_eq_true, beq_iff_eq] at h2
  exact h2

theorem get_model_self {reg : List VClass} (hwf : WFreg reg) {c : VClass} (hc : c ∈ reg) :
    get_model reg c.app_label c.model_name = some c := by
  unfold get_model
  induction reg with
  | nil => cases hc
  | cons d rest ih =>
    rcases hwf with ⟨hall, hpw⟩
    rcases List.pairwise_cons.mp hpw with ⟨hd, hpw2⟩
    have hcwf := hall c hc
    rcases List.mem_cons.mp hc with rfl | hct
    · have hp : (c.app_label == lowerStr c.app_label
          && c.model_name == lowerStr c.model_name) = true := by
        simp [hcwf.1, hcwf.2.1]
      exact List.find?_cons_of_pos _ hp
    · have hne := hd c hct
      have hp : ¬ (d.app_label == lowerStr c.app_label
          && d.model_name == lowerStr c.model_name) = true := by
        simp only [hcwf.1, hcwf.2.1, Bool.and_eq_true, beq_iff_eq]
        rcases hne with h | h <;> tauto
      exact (List.find?_cons_of_neg rest hp).trans
        (ih ⟨fun x hx => hall x (List.mem_cons_of_mem _ hx), hpw2⟩ hct)

theorem wf_pair_eq {reg : List VClass} (hwf : WFreg reg) {x c : VClass}
    (hx : x ∈ reg) (hc : c ∈ reg)
    (ha : x.app_label = c.app_label) (hm : x.model_name = c.model_name) : x = c := by
  by_contra hne
  have hsym : Symmetric (fun a b : VClass =>
      a.app_label ≠ b.app_label ∨ a.model_name ≠ b.model_name) := by
    intro a b hab
    rcases hab with h | h
    · exact Or.inl (Ne.symm h)
    · exact Or.inr (Ne.symm h)
  have := List.Pairwise.forall hsym hwf.2 hx hc hne
  rcases this with h | h
  · exact h ha
  · exact h hm

theorem split_mdtn {reg : List VClass} (hwf : WFreg reg) {c : VClass} (hc : c ∈ reg) :
    splitLastUnderscore (model_default_table_name c) = (c.app_label, c.model_name) := by
  have hcwf := hwf.1 c hc
  rw [wf_mdtn hcwf]
  exact splitLastUnderscore_append hcwf.2.2.2.1

theorem mdtn_inj {reg : List VClass} (hwf : WFreg reg) {x c : VClass}
    (hx : x ∈ reg) (hc : c ∈ reg)
    (h : model_default_table_name x = model_default_table_name c) : x = c := by
  have hs := congrArg splitLastUnderscore h
  rw [split_mdtn hwf hx, split_mdtn hwf hc] at hs
  exact wf_pair_eq hwf hx hc (congrArg Prod.fst hs) (congrArg Prod.snd hs)

theorem wf_app_ne_none {c : VClass} (h : lowerStr c.app_label = c.app_label) :
    c.app_label ≠ "None" := by
  intro he
  rw [he] at h
  exact absurd h (by decide)

/-! Relating the flatten loop output to the returned model list. -/


theorem resolveSome_eq_ok {reg : List VClass} {n : String} {m : VClass}
    (h : resolveSome reg n = some m) : resolveOkName reg n = .ok (some m) := by
  unfold resolveSome at h
  cases hr : resolveOkName reg n with
  | error e =>
    rw [hr] at h
    simp at h
  | ok m? =>
    cases m? with
    | none =>
      rw [hr] at h
      simp at h
    | some m2 =>
      rw [hr] at h
      simp at h
      exact congrArg (fun z => Except.ok (some z)) h

theorem modelsFromFlattened_eq {reg : List VClass} :
    ∀ {ns : List String} {ms : List VClass},
    modelsFromFlattened reg ns = .ok ms → ms = ns.filterMap (resolveSome reg) := by
  intro ns
  induction ns with
  | nil =>
    intro ms h
    cases h
    simp
  | cons n rest ih =>
    intro ms h
    rw [modelsFromFlattened] at h
    cases hr : resolveOkName reg n with
    | error e =>
      rw [hr] at h
      cases h
    | ok m? =>
      rw [hr] at h
      cases hrec : modelsFromFlattened reg rest with
      | error e =>
        rw [hrec] at h
        cases h
      | ok ms2 =>
        rw [hrec] at h
        cases m? with
        | some m =>
          cases h
          have hresolve : resolveSome reg n = some m := by
            unfold resolveSome
            rw [hr]
          simp [List.filterMap_cons, hresolve, ih hrec]
        | none =>
          cases h
          have hresolve : resolveSome reg n = none := by
            unfold resolveSome
            rw [hr]
          simp [List.filterMap_cons, hresolve, ih hrec]

theorem sort_dependencies_parts {reg : List VClass} {apps : String} {ms : List VClass}
    (h : sort_dependencies reg apps = .ok ms) :
    ∃ g F, buildGraph reg apps = .ok g ∧ toposort_flatten g = .ok F ∧
      modelsFromFlattened reg F = .ok ms := by
  unfold sort_dependencies at h
  split at h
  · cases h
  · rename_i g hg
    split at h
    · cases h
    · rename_i F hf
      exact ⟨g, F, hg, hf, h⟩

theorem toposort_flatten_parts {g : Graph} {F : List String}
    (h : toposort_flatten g = .ok F) :
    ∃ L, toposortLoop (prepare g).length (prepare g) = .ok L ∧ F = flatSorted L := by
  unfold toposort_flatten at h
  cases hl : toposortLoop (prepare g).length (prepare g) with
  | error e =>
    rw [hl] at h
    cases h
  | ok L =>
    rw [hl] at h
    cases h
    exact ⟨L, rfl, rfl⟩

theorem buildGraph_nodupKeys {reg : List VClass} {apps : String} {g : Graph}
    (h : buildGraph reg apps = .ok g) : NodupKeys g := by
  unfold buildGraph at h
  exact buildGraphAux_nodupKeys h (by simp [NodupKeys])

theorem flatten_respects_edges {g : Graph} {F : List String} (hnd : NodupKeys g)
    (hflat : toposort_flatten g = .ok F) {k v : String}
    (he : GraphEdge g k v) : idxOf v F < idxOf k F := by
  rcases toposort_flatten_parts hflat with ⟨L, hloop, rfl⟩
  rcases he with ⟨vs, hmem, hv⟩
  exact toposortLoop_ordering hloop (nodupKeys_prepare hnd) (List.mem_append_left _ hmem) hv

theorem flatten_nodup {g : Graph} {F : List String} (hnd : NodupKeys g)
    (hflat : toposort_flatten g = .ok F) : F.Nodup := by
  rcases toposort_flatten_parts hflat with ⟨L, hloop, rfl⟩
  exact toposortLoop_flat_nodup hloop (nodupKeys_prepare hnd)

theorem flatten_key_mem {g : Graph} {F : List String} (hflat : toposort_flatten g = .ok F)
    {k : String} {vs : List String} (hmem : (k, vs) ∈ g) : k ∈ F := by
  rcases toposort_flatten_parts hflat with ⟨L, hloop, rfl⟩
  apply toposortLoop_key_mem hloop
  exact List.mem_append_left _ hmem

theorem sortFlat_name_src {g : Graph} {F : List String}
    (hflat : toposort_flatten g = .ok F) {n : String} (hn : n ∈ F) :
    (∃ vs0, (n, vs0) ∈ g) ∨ (∃ p ∈ g, n ∈ p.2) := by
  rcases toposort_flatten_parts hflat with ⟨L, hloop, rfl⟩
  rcases toposortLoop_flat_sub hloop hn with ⟨vs, hvs⟩
  exact prepare_key_src hvs

/-! Dependency paths and cycles. -/

theorem path_idx {g : Graph} {F : List String} (hnd : NodupKeys g)
    (hflat : toposort_flatten g = .ok F) {a b : String}
    (hp : DepPath g a b) : idxOf b F < idxOf a F := by
  induction hp with
  | single he => exact flatten_respects_edges hnd hflat he
  | tail hab hbc ih => exact lt_trans (flatten_respects_edges hnd hflat hbc) ih

/-- A graph that flattens successfully is acyclic (used to discharge
acyclicity on concrete inputs). -/
theorem acyclic_of_flatten {g : Graph} {F : List String} (hnd : NodupKeys g)
    (hflat : toposort_flatten g = .ok F) : Acyclic g := by
  intro n hp
  exact lt_irrefl _ (path_idx hnd hflat hp)

/-! Names in the graph and in the flattened sequence. -/

theorem split_mdtn_fst {reg : List VClass} (hwf : WFreg reg) {c : VClass} (hc : c ∈ reg) :
    (splitLastUnderscore (model_default_table_name c)).1 = c.app_label :=
  congrArg Prod.fst (split_mdtn hwf hc)

theorem split_mdtn_snd {reg : List VClass} (hwf : WFreg reg) {c : VClass} (hc : c ∈ reg) :
    (splitLastUnderscore (model_default_table_name c)).2 = c.model_name :=
  congrArg Prod.snd (split_mdtn hwf hc)

theorem resolveSome_mdtn_det {reg : List VClass} (hwf : WFreg reg) {x z : VClass}
    (hx : x ∈ reg) (h : resolveSome reg (model_default_table_name x) = some z) : z = x := by
  have hok := resolveSome_eq_ok h
  unfold resolveOkName at hok
  rw [split_mdtn_fst hwf hx, split_mdtn_snd hwf hx] at hok
  split at hok
  · simp at hok
  · rw [get_model_self hwf hx] at hok
    simp at hok
    exact hok.2.symm

theorem buildGraph_names_scope {reg : List VClass} {apps : String} {g : Graph}
    (h : buildGraph reg apps = .ok g) :
    GraphProp
      (fun n => ∃ x ∈ reg, enumOk apps x = true ∧ n = model_default_table_name x)
      (fun n => ∃ x ∈ reg, enumOk apps x = true ∧ ∃ am ∈ x.dependencies,
        ∃ y, get_model reg am.1 am.2 = some y ∧ n = model_default_table_name y) g := by
  unfold buildGraph at h
  apply buildGraphAux_graphProp h
  · intro p hp
    cases hp
  · intro c hc he
    exact ⟨c, hc, he, rfl⟩
  · intro c hc he a m dep hmem hres
    exact ⟨c, hc, he, (a, m), hmem, dep, hres, rfl⟩

theorem flat_name_of_reg {reg : List VClass} {apps : String} {g : Graph} {F : List String}
    (hg : buildGraph reg apps = .ok g) (hflat : toposort_flatten g = .ok F)
    {n : String} (hn : n ∈ F) : ∃ x ∈ reg, n = model_default_table_name x := by
  have hnames := buildGraph_names_scope hg
  rcases sortFlat_name_src hflat hn with ⟨vs0, hk⟩ | ⟨p, hp, hv⟩
  · rcases (hnames _ hk).1 with ⟨x, hx, -, hnx⟩
    exact ⟨x, hx, hnx⟩
  · rcases (hnames p hp).2 n hv with ⟨x, hx, -, am, -, y, hy, hny⟩
    exact ⟨y, (get_model_sound hy).1, hny⟩

theorem mem_ms_name {reg : List VClass} {apps : String} {g : Graph} {F : List String}
    (hwf : WFreg reg) (hg : buildGraph reg apps = .ok g)
    (hflat : toposort_flatten g = .ok F) {n : String} {c : VClass}
    (hn : n ∈ F) (hr : resolveSome reg n = some c) :
    n = model_default_table_name c ∧ c ∈ reg := by
  rcases flat_name_of_reg hg hflat hn with ⟨x, hxreg, rfl⟩
  have hcx := resolveSome_mdtn_det hwf hxreg hr
  subst hcx
  exact ⟨rfl, hxreg⟩

theorem sql_create_ok_length {c : VClass} {dryrun : Bool} {s : List Pv}
    (h : sql_create c dryrun = .ok s) : s.length = 2 := by
  unfold sql_create at h
  cases hc : c.sql with
  | none =>
    rw [hc] at h
    cases h
  | some body =>
    rw [hc] at h
    cases h
    rfl

theorem createStatements_mem {dryrun : Bool} :
    ∀ {ms : List VClass} {cs : List (List Pv)},
    createStatements dryrun ms = .ok cs → ∀ s ∈ cs, ∃ m, sql_create m dryrun = .ok s := by
  intro ms
  induction ms with
  | nil =>
    intro cs h s hs
    cases h
    cases hs
  | cons m rest ih =>
    intro cs h s hs
    rw [createStatements] at h
    cases hcr : sql_create m dryrun with
    | error e =>
      rw [hcr] at h
      cases h
    | ok s0 =>
      rw [hcr] at h
      cases hrec : createStatements dryrun rest with
      | error e =>
        rw [hrec] at h
        cases h
      | ok ss =>
        rw [hrec] at h
        cases h
        rcases List.mem_cons.mp hs with rfl | hs2
        · exact ⟨m, hcr⟩
        · exact ih hrec s hs2

/-! Python dict read and write on the metadata object. -/

theorem getKey_map_replace {kvs : List (String × Jval)} {k : String} {v : Jval}
    (hany : kvs.any (fun p => p.1 == k) = true) :
    getKey (kvs.map (fun p => if p.1 == k then (p.1, v) else p)) k = some v := by
  induction kvs with
  | nil => simp at hany
  | cons p rest ih =>
    by_cases hpk : (p.1 == k) = true
    · unfold getKey
      rw [List.map_cons, if_pos hpk]
      have hfind : List.find? (fun q : String × Jval => q.1 == k)
          ((p.1, v) :: rest.map (fun p => if p.1 == k then (p.1, v) else p))
          = some (p.1, v) :=
        List.find?_cons_of_pos _ hpk
      rw [hfind]
      rfl
    · have hrest : rest.any (fun p => p.1 == k) = true := by
        rcases List.any_eq_true.mp hany with ⟨q, hq, hqk⟩
        rcases List.mem_cons.mp hq with rfl | hq2
        · exact absurd hqk hpk
        · exact List.any_eq_true.mpr ⟨q, hq2, hqk⟩
      unfold getKey
      rw [List.map_cons, if_neg hpk]
      have hfind : List.find? (fun q : String × Jval => q.1 == k)
          (p :: rest.map (fun p => if p.1 == k then (p.1, v) else p))
          = List.find? (fun q : String × Jval => q.1 == k)
              (rest.map (fun p => if p.1 == k then (p.1, v) else p)) :=
        List.find?_cons_of_neg _ hpk
      rw [hfind]
      exact ih hrest

theorem getKey_append_not {kvs : List (String × Jval)} {k : String}
    (hno : ∀ p ∈ kvs, ¬ (p.1 == k) = true) (l2 : List (String × Jval)) :
    getKey (kvs ++ l2) k = getKey l2 k := by
  induction kvs with
  | nil => rfl
  | cons p rest ih =>
    unfold getKey
    rw [List.cons_append]
    have hfind : List.find? (fun q : String × Jval => q.1 == k) (p :: (rest ++ l2))
        = List.find? (fun q : String × Jval => q.1 == k) (rest ++ l2) :=
      List.find?_cons_of_neg _ (hno p (List.mem_cons_self _ _))
    rw [hfind]
    exact ih (fun q hq => hno q (List.mem_cons_of_mem _ hq))

theorem getKey_setKey_same (kvs : List (String × Jval)) (k : String) (v : Jval) :
    getKey (setKey kvs k v) k = some v := by
  unfold setKey
  by_cases hany : kvs.any (fun p => p.1 == k)
  · rw [if_pos hany]
    exact getKey_map_replace hany
  · rw [if_neg hany]
    have hno : ∀ p ∈ kvs, ¬ (p.1 == k) = true := by
      intro p hp hc
      exact hany (List.any_eq_true.mpr ⟨p, hp, hc⟩)
    rw [getKey_append_not hno]
    have hfind : List.find? (fun q : String × Jval => q.1 == k) [(k, v)] = some (k, v) :=
      List.find?_cons_of_pos _ (by simp)
    unfold getKey
    rw [hfind]
    rfl

theorem getKey_map_replace_ne {kvs : List (String × Jval)} {k k2 : String} {v : Jval}
    (hne : k2 ≠ k) :
    getKey (kvs.map (fun p => if p.1 == k then (p.1, v) else p)) k2 = getKey kvs k2 := by
  induction kvs with
  | nil => rfl
  | cons p rest ih =>
    by_cases hpk : (p.1 == k) = true
    · have hp1 : p.1 = k := by simpa using hpk
      have hpred : ¬ (p.1 == k2) = true := by simp [hp1, Ne.symm hne]
      unfold getKey
      rw [List.map_cons, if_pos hpk]
      have hfind1 : List.find? (fun q : String × Jval => q.1 == k2)
          ((p.1, v) :: rest.map (fun p => if p.1 == k then (p.1, v) else p))
          = List.find? (fun q : String × Jval => q.1 == k2)
              (rest.map (fun p => if p.1 == k then (p.1, v) else p)) :=
        List.find?_cons_of_neg _ hpred
      have hfind2 : List.find? (fun q : String × Jval => q.1 == k2) (p :: rest)
          = List.find? (fun q : String × Jval => q.1 == k2) rest :=
        List.find?_cons_of_neg _ hpred
      rw [hfind1, hfind2]
      exact ih
    · unfold getKey
      rw [List.map_cons, if_neg hpk]
      by_cases hpred : (p.1 == k2) = true
      · have hfind1 : List.find? (fun q : String × Jval => q.1 == k2)
            (p :: rest.map (fun p => if p.1 == k then (p.1, v) else p)) = some p :=
          List.find?_cons_of_pos _ hpred
        have hfind2 : List.find? (fun q : String × Jval => q.1 == k2) (p :: rest) = some p :=
          List.find?_cons_of_pos _ hpred
        rw [hfind1, hfind2]
      · have hfind1 : List.find? (fun q : String × Jval => q.1 == k2)
            (p :: rest.map (fun p => if p.1 == k then (p.1, v) else p))
            = List.find? (fun q : String × Jval => q.1 == k2)
                (rest.map (fun p => if p.1 == k then (p.1, v) else p)) :=
          List.find?_cons_of_neg _ hpred
        have hfind2 : List.find? (fun q : String × Jval => q.1 == k2) (p :: rest)
            = List.find? (fun q : String × Jval => q.1 == k2) rest :=
          List.find?_cons_of_neg _ hpred
        rw [hfind1, hfind2]
        exact ih

theorem getKey_append_single_ne {kvs : List (String × Jval)} {k k2 : String} {v : Jval}
    (hne : k2 ≠ k) : getKey (kvs ++ [(k, v)]) k2 = getKey kvs k2 := by
  induction kvs with
  | nil =>
    unfold getKey
    rw [List.nil_append]
    have hfind : List.find? (fun q : String × Jval => q.1 == k2) [(k, v)]
        = List.find? (fun q : String × Jval => q.1 == k2) [] :=
      List.find?_cons_of_neg _ (by simp [Ne.symm hne])
    rw [hfind]
  | cons p rest ih =>
    unfold getKey
    rw [List.cons_append]
    by_cases hpred : (p.1 == k2) = true
    · have hfind1 : List.find? (fun q : String × Jval => q.1 == k2) (p :: (rest ++ [(k, v)]))
          = some p :=
        List.find?_cons_of_pos _ hpred
      have hfind2 : List.find? (fun q : String × Jval => q.1 == k2) (p :: rest) = some p :=
        List.find?_cons_of_pos _ hpred
      rw [hfind1, hfind2]
    · have hfind1 : List.find? (fun q : String × Jval => q.1 == k2) (p :: (rest ++ [(k, v)]))
          = List.find? (fun q : String × Jval => q.1 == k2) (rest ++ [(k, v)]) :=
        List.find?_cons_of_neg _ hpred
      have hfind2 : List.find? (fun q : String × Jval => q.1 == k2) (p :: rest)
          = List.find? (fun q : String × Jval => q.1 == k2) rest :=
        List.find?_cons_of_neg _ hpred
      rw [hfind1, hfind2]
      exact ih

theorem getKey_setKey_ne {kvs : List (String × Jval)} {k k2 : String} {v : Jval}
    (hne : k2 ≠ k) : getKey (setKey kvs k v) k2 = getKey kvs k2 := by
  unfold setKey
  by_cases hany : kvs.any (fun p => p.1 == k)
  · rw [if_pos hany]
    exact getKey_map_replace_ne hne
  · rw [if_neg hany]
    exact getKey_append_single_ne hne

/-! Claim theorems. -/

/-- C1: for every acyclic dependency graph built from the registered view
definitions, the ordered list returned by `ViewDefinition.sort_dependencies`
never places a definition before any of its declared dependencies: whenever
a scheduled definition `c` declares a dependency that resolves to a model
`d` which is also scheduled, `d` appears strictly earlier in the returned
order than `c`. -/
theorem sort_dependencies_respects_dependencies
    (reg : List VClass) (apps : String) (g : Graph) (ms : List VClass)
    (c d : VClass) (a m : String)
    (hwf : WFreg reg)
    (hg : buildGraph reg apps = .ok g)
    (hacy : Acyclic g)
    (hs : sort_dependencies reg apps = .ok ms)
    (hc : c ∈ ms) (hd : d ∈ ms)
    (henum : enumOk apps c = true)
    (hdep : (a, m) ∈ c.dependencies)
    (hres : get_model reg a m = some d) :
    idxOf d ms < idxOf c ms := by
  rcases sort_dependencies_parts hs with ⟨g2, F, hg2, hflat, hmf⟩
  have hgg : g = g2 := by
    have hinjg := hg.symm.trans hg2
    cases hinjg
    rfl
  subst hgg
  have hms := modelsFromFlattened_eq hmf
  subst hms
  rcases List.mem_filterMap.mp hc with ⟨nc, hnc, hrc⟩
  rcases List.mem_filterMap.mp hd with ⟨nd, hnd, hrd⟩
  rcases mem_ms_name hwf hg hflat hnc hrc with ⟨hnceq, hcreg⟩
  rcases mem_ms_name hwf hg hflat hnd hrd with ⟨hndeq, -⟩
  subst hnceq
  subst hndeq
  have hedge : GraphEdge g (model_default_table_name c) (model_default_table_name d) := by
    unfold buildGraph at hg
    exact buildGraphAux_edge_new hg hcreg henum hdep hres
  have hidx : idxOf (model_default_table_name d) F < idxOf (model_default_table_name c) F :=
    flatten_respects_edges (buildGraph_nodupKeys hg) hflat hedge
  have hFnd := flatten_nodup (buildGraph_nodupKeys hg) hflat
  have hbefore : ListBefore (model_default_table_name d) (model_default_table_name c) F :=
    before_of_idxOf_lt hnd hnc hidx
  have hbefore2 : ListBefore d c (F.filterMap (resolveSome reg)) :=
    listBefore_filterMap hbefore hrd hrc
  have hinj : ∀ n1 n2 z, n1 ∈ F → n2 ∈ F → resolveSome reg n1 = some z →
      resolveSome reg n2 = some z → n1 = n2 := by
    intro n1 n2 z h1 h2 hz1 hz2
    have e1 := (mem_ms_name hwf hg hflat h1 hz1).1
    have e2 := (mem_ms_name hwf hg hflat h2 hz2).1
    rw [e1, e2]
  exact idxOf_lt_of_before hbefore2 (filterMap_nodup hFnd hinj)


/-- C1 witness: in the A-B-C scenario (B depends on A, C depends on B) the
scheduler places A before B. -/
theorem sort_dependencies_respects_dependencies_witness :
    sort_dependencies regABC "all" = .ok [clsA, clsB, clsC] ∧
    idxOf clsA [clsA, clsB, clsC] < idxOf clsB [clsA, clsB, clsC] := by
  refine ⟨by decide, ?_⟩
  exact sort_dependencies_respects_dependencies regABC "all" gABC [clsA, clsB, clsC]
    clsB clsA "appabc" "A" (by decide) (by decide)
    (acyclic_of_flatten (by decide)
      (show toposort_flatten gABC = .ok ["appabc_a", "appabc_b", "appabc_c"] by decide))
    (by decide) (by decide) (by decide) (by decide) (by decide) (by decide)

/-- C2: for every dependency graph containing a cycle (for example X
depending on Y and Y on X), scheduling via `sort_dependencies` fails with
the cycle error; the error result carries no model list at all, so no
partial order (no prefix of a valid order) is ever produced. -/
theorem cycle_yields_cycle_error
    (reg : List VClass) (apps : String) (g : Graph) (n : String)
    (hg : buildGraph reg apps = .ok g)
    (hcyc : DepPath g n n) :
    ∃ e, sort_dependencies reg apps = .error (.cycle e) := by
  cases hf : toposort_flatten g with
  | ok F =>
    exfalso
    exact lt_irrefl _ (path_idx (buildGraph_nodupKeys hg) hf hcyc)
  | error e =>
    refine ⟨e, ?_⟩
    unfold sort_dependencies
    simp [hg, hf]

/-- C2 witness: the mutual X-Y dependency cycle fails with the cycle
error. -/
theorem cycle_yields_cycle_error_witness :
    ∃ e, sort_dependencies regXY "all" = .error (.cycle e) := by
  apply cycle_yields_cycle_error regXY "all" gXY "appxy_x" (by decide)
  have e1 : GraphEdge gXY "appxy_x" "appxy_y" := ⟨["appxy_y"], by decide, by decide⟩
  have e2 : GraphEdge gXY "appxy_y" "appxy_x" := ⟨["appxy_x"], by decide, by decide⟩
  exact Relation.TransGen.tail (Relation.TransGen.single e1) e2

/-- C3: the drop plan and the create plan are rendered from the same
topologically sorted entity list, the drop plan over its reverse and the
create plan over it forward, so the drop plan's entity order is exactly the
reverse of the create plan's. -/
theorem drop_plan_is_reverse_of_create_plan
    (reg : List VClass) (apps : String) (dryrun : Bool) (ms : List VClass)
    (hs : sort_dependencies reg apps = .ok ms) :
    drop_all_statements reg dryrun apps
      = .ok ((ms.map (fun m => sql_drop m false dryrun)).reverse) ∧
    create_all_statements reg dryrun apps = createStatements dryrun ms := by
  constructor
  · simp [drop_all_statements, hs, List.map_reverse]
  · simp [create_all_statements, hs]

/-- C3 witness: in the A-B-C scenario the drop plan is the reversed image of
the create-order entity list [A, B, C]. -/
theorem drop_plan_is_reverse_of_create_plan_witness :
    drop_all_statements regABC true "all"
      = .ok (([clsA, clsB, clsC].map (fun m => sql_drop m false true)).reverse) ∧
    create_all_statements regABC true "all" = createStatements true [clsA, clsB, clsC] :=
  drop_plan_is_reverse_of_create_plan regABC "all" true [clsA, clsB, clsC] (by decide)

/-- C4 counterexample: with scope "ns1", the ns2 definition declared as a
dependency of an ns1 definition appears in the schedule and in the create
plan, although its namespace is out of scope. -/
theorem out_of_scope_dependency_in_plan :
    clsNs2.app_label = "ns2" ∧
    inScope "ns1" clsNs2 = false ∧
    sort_dependencies regScope "ns1" = .ok [clsNs2, clsNs1] ∧
    create_all_statements regScope true "ns1"
      = .ok [[Pv.str "CREATE VIEW \"ns2_d2\" AS (SELECT 2)", Pv.none],
             [Pv.str "CREATE VIEW \"ns1_d1\" AS (SELECT 1)", Pv.none]] := by
  refine ⟨rfl, by decide, by decide, by decide⟩

/-- C4 (amended): every scheduled definition is either in scope or is the
resolved target of a dependency declared by some in-scope, non-abstract
registered view definition; scope filtering is applied to the enumerated
definitions only, so out-of-scope direct dependencies of in-scope
definitions do appear in plans. -/
theorem plans_contain_scope_or_direct_dependency
    (reg : List VClass) (apps : String) (ms : List VClass) (c : VClass)
    (hwf : WFreg reg)
    (hs : sort_dependencies reg apps = .ok ms)
    (hc : c ∈ ms) :
    inScope apps c = true ∨
      ∃ x ∈ reg, enumOk apps x = true ∧ ∃ am ∈ x.dependencies,
        get_model reg am.1 am.2 = some c := by
  rcases sort_dependencies_parts hs with ⟨g, F, hg, hflat, hmf⟩
  have hms := modelsFromFlattened_eq hmf
  subst hms
  rcases List.mem_filterMap.mp hc with ⟨n, hn, hr⟩
  rcases mem_ms_name hwf hg hflat hn hr with ⟨hneq, hcreg⟩
  subst hneq
  have hnames := buildGraph_names_scope hg
  rcases sortFlat_name_src hflat hn with ⟨vs0, hk⟩ | ⟨p, hp, hv⟩
  · rcases (hnames _ hk).1 with ⟨x, hx, hex, hnx⟩
    have hxc : x = c := mdtn_inj hwf hx hcreg hnx.symm
    subst hxc
    left
    unfold enumOk at hex
    simp only [Bool.and_eq_true] at hex
    exact hex.1.2
  · rcases (hnames p hp).2 _ hv with ⟨x, hx, hex, am, ham, y, hy, hny⟩
    have hyreg := (get_model_sound hy).1
    have hyc : y = c := mdtn_inj hwf hyreg hcreg hny.symm
    subst hyc
    right
    exact ⟨x, hx, hex, am, ham, hy⟩

/-- C4 witness: in the two-namespace scenario under scope "ns1", the
scheduled ns2 definition is accounted for as a direct dependency of an
in-scope definition. -/
theorem plans_contain_scope_or_direct_dependency_witness :
    inScope "ns1" clsNs2 = true ∨
      ∃ x ∈ regScope, enumOk "ns1" x = true ∧ ∃ am ∈ x.dependencies,
        get_model regScope am.1 am.2 = some clsNs2 :=
  plans_contain_scope_or_direct_dependency regScope "ns1" [clsNs2, clsNs1] clsNs2
    (by decide) (by decide) (by decide)

/-- C5: writing the metadata (set_comment) over a prior JSON-object comment
and then reading it back (get_comment) yields the serialized object whose
`last_updated` key holds the just-written engine time and whose every other
key is unchanged (read-modify-write merge, not a blind overwrite). -/
theorem write_then_read_merges_metadata
    (c : VClass) (now : String) (st : MvState) (kvs : List (String × Jval))
    (h : st.comment = some (.jsonOf (.jobj kvs))) :
    ∃ st2, set_comment c now st = .ok st2 ∧
      get_comment st2 = some (.jsonOf (.jobj (setKey kvs "last_updated" (.jstr now)))) ∧
      getKey (setKey kvs "last_updated" (.jstr now)) "last_updated" = some (.jstr now) ∧
      ∀ k2, k2 ≠ "last_updated" →
        getKey (setKey kvs "last_updated" (.jstr now)) k2 = getKey kvs k2 := by
  refine ⟨{ comment := some (.jsonOf (.jobj (setKey kvs "last_updated" (.jstr now)))),
            executed := st.executed
              ++ [.setCommentOp (table_name c) (.jobj (setKey kvs "last_updated" (.jstr now)))] },
          ?_, rfl, getKey_setKey_same kvs _ _, fun k2 hk2 => getKey_setKey_ne hk2⟩
  unfold set_comment
  rw [show get_comment st = some (StoredComment.jsonOf (.jobj kvs)) from h]
  rfl


/-- C5 witness: the round trip at a concrete prior object. -/
theorem write_then_read_merges_metadata_witness :
    stPrior.comment = some (.jsonOf (.jobj [("owner", Jval.jstr "ops")])) ∧
    ∃ st2, set_comment clsMat "2026-01-01T00:00:00" stPrior = .ok st2 ∧
      get_comment st2 = some (.jsonOf (.jobj
        (setKey [("owner", Jval.jstr "ops")] "last_updated" (.jstr "2026-01-01T00:00:00")))) ∧
      getKey (setKey [("owner", Jval.jstr "ops")] "last_updated" (.jstr "2026-01-01T00:00:00"))
        "last_updated" = some (.jstr "2026-01-01T00:00:00") ∧
      ∀ k2, k2 ≠ "last_updated" →
        getKey (setKey [("owner", Jval.jstr "ops")] "last_updated"
          (.jstr "2026-01-01T00:00:00")) k2 = getKey [("owner", Jval.jstr "ops")] k2 :=
  ⟨rfl, write_then_read_merges_metadata clsMat "2026-01-01T00:00:00" stPrior
    [("owner", Jval.jstr "ops")] rfl⟩

/-- C6: reading the metadata of a view whose stored comment is a string that
`json.loads` rejects yields the wrapped object with the raw text under the
`old_content` key, rather than discarding the text or returning the raw
string (the read-and-decode path: `get_comment` followed by the
parse-or-wrap step of `set_comment` lines 173-176). -/
theorem read_metadata_wraps_non_json (st : MvState) (s : String)
    (h : st.comment = some (.nonJson s)) :
    read_metadata st = some (.jobj [("old_content", .jstr s)]) := by
  unfold read_metadata get_comment
  rw [h]
  rfl

/-- C6 witness: the comment string "hello". -/
theorem read_metadata_wraps_non_json_witness :
    ({ comment := some (.nonJson "hello"), executed := [] } : MvState).comment
      = some (.nonJson "hello") ∧
    read_metadata { comment := some (.nonJson "hello"), executed := [] }
      = some (.jobj [("old_content", .jstr "hello")]) :=
  ⟨rfl, read_metadata_wraps_non_json { comment := some (.nonJson "hello"), executed := [] }
    "hello" rfl⟩

/-- C7: when a materialized definition's `update_mv` policy refuses the
refresh, `sql_refresh` returns nothing, raises no error, executes no SQL,
and leaves the metadata comment untouched, for any flag combination. -/
theorem refresh_skipped_by_policy (c : VClass) (dryrun execOk : Bool) (now : String)
    (st : MvState) (h : c.update_mv = false) :
    sql_refresh c dryrun execOk now st = .ok (none, st) := by
  unfold sql_refresh
  rw [h]
  simp

/-- C7 witness: the skipping definition leaves the initial state untouched
and produces no SQL, without an error. -/
theorem refresh_skipped_by_policy_witness :
    sql_refresh clsMatSkip false true "2026-01-01T00:00:00" st0 = .ok (none, st0) :=
  refresh_skipped_by_policy clsMatSkip false true "2026-01-01T00:00:00" st0 rfl

/-- C8 counterexample: a concrete materialized definition whose subclass
never overrides the body inherits the `MaterializedViewedModel.sql` stub
(whose call returns Python None, modelled as `sql = some none`), and
rendering its CREATE statement does not fail: it succeeds with the body
text `None`. -/
theorem materialized_stub_renders_without_error :
    clsMatStub.sql = some none ∧
    sql_create clsMatStub true
      = .ok [Pv.str "CREATE MATERIALIZED VIEW \"appm_stub\" AS (None)", Pv.none] := by
  refine ⟨rfl, by decide⟩

/-- C8 (amended): a plain view definition whose `sql` body was never
provided (the attribute is absent, since the abstract base deletes its
demonstration `sql`) fails at render time with the unimplemented-body
assertion error, while merely registering such a definition does not make
scheduling fail; a materialized definition, however, inherits a stub body
from `MaterializedViewedModel` and renders `AS (None)` without failing. -/
theorem missing_sql_body_fails_at_render_only
    (dr : Bool) :
    (∀ c : VClass, c.sql = none → sql_create c dr = .error (.noSql (table_name c))) ∧
    sort_dependencies regNoSql "all" = .ok [] := by
  constructor
  · intro c h
    unfold sql_create
    rw [h]
  · decide

/-- C8 witness: the registered sql-less definition renders to the assertion
error while the registry containing it schedules without failure. -/
theorem missing_sql_body_fails_at_render_only_witness :
    sql_create clsNoSql true = .error (.noSql (table_name clsNoSql)) ∧
    sort_dependencies regNoSql "all" = .ok [] :=
  ⟨(missing_sql_body_fails_at_render_only true).1 clsNoSql rfl,
   (missing_sql_body_fails_at_render_only true).2⟩

/-- C9 counterexample: a materialized definition whose `should_refresh`
policy returns true, refreshed with `dryrun` set, returns nothing (not the
rendered pair): the `return [sql, None]` statement sits inside
`if not dryrun`, so the dryrun call falls through and returns None. -/
theorem dryrun_refresh_returns_none :
    clsMat.update_mv = true ∧
    sql_refresh clsMat true true "2026-01-01T00:00:00" st0 = .ok (none, st0) :=
  ⟨rfl, rfl⟩

/-- C9 (amended): with `dryrun` set, `sql_refresh` executes nothing and also
returns nothing even when the `update_mv` policy allows the refresh; the
rendered pair is only returned when `dryrun` is unset and execution
succeeds. -/
theorem refresh_dryrun_executes_and_returns_nothing
    (c : VClass) (execOk : Bool) (now : String) (st : MvState)
    (h : c.update_mv = true) :
    sql_refresh c true execOk now st = .ok (none, st) := by
  unfold sql_refresh
  rw [h]
  simp

/-- C9 witness: the amended behaviour at a concrete materialized definition
(with the engine set to fail, demonstrating that nothing is executed). -/
theorem refresh_dryrun_executes_and_returns_nothing_witness :
    sql_refresh clsMat true false "2026-01-02T00:00:00" st0 = .ok (none, st0) :=
  refresh_dryrun_executes_and_returns_nothing clsMat false "2026-01-02T00:00:00" st0 rfl

/-- C10: every element of the drop and create statement lists is a
two-element `[sql, params]` list, so the `len(s) == 0` padding branch of
`recreate` can never run for any scope. -/
theorem statement_lists_are_pairs
    (reg : List VClass) (apps : String) (dryrun : Bool) (ds cs : List (List Pv))
    (hd : drop_all_statements reg dryrun apps = .ok ds)
    (hc : create_all_statements reg dryrun apps = .ok cs) :
    ∀ s ∈ ds ++ cs, s.length = 2 := by
  intro s hs
  rcases List.mem_append.mp hs with h | h
  · unfold drop_all_statements at hd
    split at hd
    · cases hd
    · rename_i ms hms
      cases hd
      rcases List.mem_map.mp h with ⟨m2, -, rfl⟩
      rfl
  · unfold create_all_statements at hc
    split at hc
    · cases hc
    · rename_i ms hms
      rcases createStatements_mem hc s h with ⟨m2, hm2⟩
      exact sql_create_ok_length hm2



/-- C10 witness: the first statement of the concrete A-B-C drop plan is a
two-element list. -/
theorem statement_lists_are_pairs_witness :
    ([Pv.str "DROP VIEW IF EXISTS \"appabc_c\" ;", Pv.none] : List Pv).length = 2 :=
  statement_lists_are_pairs regABC "all" true dsABC csABC (by decide) (by decide)
    [Pv.str "DROP VIEW IF EXISTS \"appabc_c\" ;", Pv.none] (by decide)
